import Mathlib

/-!
Verification of the workflow dependency-graph core of the repository
(`src/workflowctl/compute_roots.py` and `src/workflowctl/utils.py`).

The Python code is shallowly embedded:

* a workflow graph (a JSON object mapping workflow keys to configuration
  entries) becomes an association list `Graph` of `String × WorkflowNode`;
* `dict.get(key, default)` becomes `lookupG` / `dependsOn`;
* Python `set` values are represented by `List String` values considered up
  to membership (theorems that need set semantics assume `Nodup`);
* the recursive ancestor/descendant walks (which in Python memoize through a
  `cache` dictionary and terminate exactly on acyclic graphs) are embedded
  with an explicit recursion-depth bound of `G.length`: on an acyclic graph
  every dependency chain is simple, hence shorter than the number of graph
  entries, so the bound is never hit.  The memoization cache is a pure
  optimization and is dropped.
-/

namespace Workflowctl

/-- One entry of the workflow dependency graph (one value of the JSON
object): its `depends_on` key list, its path-trigger glob patterns (strings
modelled as `List Char`), and its optional `display_order`. -/
structure WorkflowNode where
  depends_on : List String
  paths : List (List Char)
  display_order : Option Int
deriving DecidableEq, Repr

/-- The dependency graph: an association list from workflow key to its
node, embedding the Python `dict[str, Any]` (keys are unique in a dict;
theorems that rely on this assume `(keysOf G).Nodup`). -/
abbrev Graph := List (String × WorkflowNode)

/-- First binding of `k` in the association list: `graph.get(k)`. -/
def lookupG (G : Graph) (k : String) : Option WorkflowNode :=
  match G with
  | [] => none
  | (k', v) :: rest => if k' = k then some v else lookupG rest k

/-- `graph.get(workflow, {}).get("depends_on", [])`: the direct
dependencies of `k`, empty when `k` is not a key of the graph. -/
def dependsOn (G : Graph) (k : String) : List String :=
  ((lookupG G k).map WorkflowNode.depends_on).getD []

/-- The keys of the graph (`graph.keys()`). -/
def keysOf (G : Graph) : List String := G.map Prod.fst

/-- The transitive "is an ancestor of" relation of the source: `a` is an
ancestor of `w` iff there is a nonempty `depends_on` chain from `w` down to
`a`.  Dangling references (keys absent from the graph) are legitimate
ancestors but contribute no further expansion, exactly as in the code. -/
inductive AncRel (G : Graph) : String → String → Prop
  | direct {d w : String} : d ∈ dependsOn G w → AncRel G d w
  | trans {a d w : String} : d ∈ dependsOn G w → AncRel G a d → AncRel G a w

/-- Recursion-depth-bounded embedding of `get_all_ancestors`:
`ancestors = ⋃ (dep ∈ depends_on w), {dep} ∪ ancestors(dep)`. -/
def ancestorsF (G : Graph) : Nat → String → List String
  | 0, _ => []
  | n + 1, w =>
    (dependsOn G w).flatMap (fun dep => dep :: ancestorsF G n dep)

/-- `get_all_ancestors(workflow, graph)`: the set of transitive
dependencies of `workflow`.  The recursion depth of the source terminates
within `G.length` levels on every acyclic graph (dependency chains are
simple), which the bound realizes; `mem_get_all_ancestors` proves the
result is exactly the transitive closure `AncRel`. -/
def get_all_ancestors (w : String) (G : Graph) : List String :=
  ancestorsF G G.length w

/-- A dependency chain witnessing `AncRel G a w`: the list records all
chain nodes except the final ancestor, starting at `w`. -/
inductive AncPath (G : Graph) : List String → String → String → Prop
  | direct {d w : String} : d ∈ dependsOn G w → AncPath G [w] d w
  | trans {a d w : String} {l : List String} : d ∈ dependsOn G w →
      AncPath G l a d → AncPath G (w :: l) a w

/-- The transitive "is a descendant of" relation of the source:
`DescRel G m k` holds iff `m` is a graph entry whose `depends_on` chain
transitively reaches `k`.  Every chain node except possibly the final
dependency `k` is a key of the graph, mirroring that `get_all_descendants`
discovers dependents by scanning the graph's entries. -/
inductive DescRel (G : Graph) : String → String → Prop
  | direct {d k : String} {n : WorkflowNode} : (d, n) ∈ G →
      k ∈ n.depends_on → DescRel G d k
  | trans {m d k : String} {n : WorkflowNode} : (d, n) ∈ G →
      k ∈ n.depends_on → DescRel G m d → DescRel G m k

/-- Recursion-depth-bounded embedding of `get_all_descendants`: scan all
graph entries for direct dependents of `w` and recurse. -/
def descendantsF (G : Graph) : Nat → String → List String
  | 0, _ => []
  | fuel + 1, w =>
    G.flatMap (fun p =>
      if w ∈ p.2.depends_on then p.1 :: descendantsF G fuel p.1 else [])

/-- `get_all_descendants(workflow, graph)`: all transitive dependents of
`workflow`.  As with `get_all_ancestors`, the source recursion terminates
within `G.length` levels on acyclic graphs and the memoization cache is
semantically transparent, so the depth bound realizes the source. -/
def get_all_descendants (k : String) (G : Graph) : List String :=
  descendantsF G G.length k

/-- A dependent chain witnessing `DescRel G m k`: the list records the
dependents in order walking away from `k`, ending at `m`. -/
inductive DescPath (G : Graph) : List String → String → String → Prop
  | direct {d k : String} {n : WorkflowNode} : (d, n) ∈ G →
      k ∈ n.depends_on → DescPath G [d] d k
  | trans {m d k : String} {n : WorkflowNode} {l : List String} :
      (d, n) ∈ G → k ∈ n.depends_on → DescPath G l m d →
      DescPath G (d :: l) m k

/-- Acyclicity of the dependency graph, stated executably: no key is its
own transitive dependency.  (`acyclic_iff_no_ancRel_self` relates this to
the relational form.) -/
def Acyclic (G : Graph) : Prop :=
  ∀ k ∈ keysOf G, k ∉ get_all_ancestors k G

instance (G : Graph) : Decidable (Acyclic G) := by
  unfold Acyclic
  infer_instance

/-!  ### Glob matching (`utils.file_matches_pattern`)

`fnmatch.fnmatch` (POSIX: no case folding) translates the pattern to a
regex: `*` ↦ `.*`, `?` ↦ `.`, a bracketed character class keeps fnmatch's
class rules (leading `!` negates; a `]` right after `[` or `[!` is
literal; an unterminated `[` is a literal `[`; `a-b` is a range, with a
leading or trailing `-` literal and empty ranges matching nothing), every
other character is literal.  We embed that semantics directly as a
recursive matcher.  The recursion consumes at least one pattern or input
character at every step, so `pattern.length + input.length` bounds the
recursion depth; the structural fuel realizes exactly that bound. -/

/-- Scan for the closing `]` of a character class, returning the class
body and the remainder of the pattern. -/
def findClose : List Char → Option (List Char × List Char)
  | [] => none
  | c :: rest =>
    if c = ']' then some ([], rest)
    else (findClose rest).map (fun pr => (c :: pr.1, pr.2))

/-- fnmatch's bracket scan: skip a leading `!`, then a leading `]`
(both belong to the class body), then find the closing `]`.  `none`
means the class is unterminated and `[` is literal. -/
def scanClass (s : List Char) : Option (List Char × List Char) :=
  match s with
  | '!' :: ']' :: rest =>
    (findClose rest).map (fun pr => ('!' :: ']' :: pr.1, pr.2))
  | '!' :: rest => (findClose rest).map (fun pr => ('!' :: pr.1, pr.2))
  | ']' :: rest => (findClose rest).map (fun pr => (']' :: pr.1, pr.2))
  | s => findClose s

/-- Match one character against the (unnegated) items of a class body:
`a-b` ranges (value-empty ranges match nothing, exactly like fnmatch's
merged chunks), with leading/trailing `-` literal. -/
def itemsMatch : List Char → Char → Bool
  | [], _ => false
  | [a], c => a == c
  | a :: '-' :: [], c => a == c || c == '-'
  | a :: '-' :: b :: rest, c =>
    (decide (a ≤ c) && decide (c ≤ b)) || itemsMatch rest c
  | a :: rest, c => a == c || itemsMatch rest c

/-- Match one character against a full class body, handling fnmatch's
special cases: empty body never matches, `!` alone matches anything,
leading `!` negates. -/
def classMatch (content : List Char) (c : Char) : Bool :=
  match content with
  | [] => false
  | ['!'] => true
  | '!' :: rest => !(itemsMatch rest c)
  | _ => itemsMatch content c

/-- The glob matcher, fueled by recursion depth (every step consumes at
least one pattern or input character, so `p.length + s.length` fuel is
always enough and the zero-fuel arm is unreachable from `fnmatch`). -/
def globF : Nat → List Char → List Char → Bool
  | _, [], s => s.isEmpty
  | 0, _ :: _, _ => false
  | n + 1, c :: ps, s =>
    if c = '*' then
      globF n ps s ||
        (match s with
         | [] => false
         | _ :: s' => globF n (c :: ps) s')
    else if c = '?' then
      match s with
      | [] => false
      | _ :: s' => globF n ps s'
    else if c = '[' then
      match scanClass ps with
      | some (content, rest) =>
        match s with
        | [] => false
        | ch :: s' => classMatch content ch && globF n rest s'
      | none =>
        match s with
        | [] => false
        | ch :: s' => (ch == '[') && globF n ps s'
    else
      match s with
      | [] => false
      | d :: s' => (c == d) && globF n ps s'

/-- `fnmatch.fnmatch(filepath, pattern)` on a POSIX platform. -/
def fnmatch (filepath pattern : List Char) : Bool :=
  globF (pattern.length + filepath.length) pattern filepath

/-- `"**" in pattern`. -/
def hasStarStar : List Char → Bool
  | [] => false
  | [_] => false
  | c :: c' :: rest =>
    (c == '*' && c' == '*') || hasStarStar (c' :: rest)

/-- `pattern.replace("**", "*")` (left-to-right, non-overlapping). -/
def replaceStarStar : List Char → List Char
  | [] => []
  | [c] => [c]
  | c :: c' :: rest =>
    if c = '*' ∧ c' = '*' then '*' :: replaceStarStar rest
    else c :: replaceStarStar (c' :: rest)

/-- `pattern.split("**")[0]`: the literal text before the first `**`
(the whole pattern when there is none). -/
def starStarHead : List Char → List Char
  | [] => []
  | [c] => [c]
  | c :: c' :: rest =>
    if c = '*' ∧ c' = '*' then [] else c :: starStarHead (c' :: rest)

/-- `utils.file_matches_pattern`: recursive-wildcard patterns first try
the pattern with `**` collapsed to `*`, then a literal-prefix check, then
fall through to plain fnmatch. -/
def file_matches_pattern (filepath pattern : List Char) : Bool :=
  if hasStarStar pattern then
    if fnmatch filepath (replaceStarStar pattern) then true
    else if (starStarHead pattern).isPrefixOf filepath then true
    else fnmatch filepath pattern
  else fnmatch filepath pattern

/-- `compute_roots.file_matches_patterns`: any pattern matches. -/
def file_matches_patterns (filepath : List Char)
    (patterns : List (List Char)) : Bool :=
  patterns.any (fun pattern => file_matches_pattern filepath pattern)

/-- Is the pattern a (possibly empty) run of `*` characters? -/
def allStars : List Char → Bool
  | [] => true
  | c :: rest => c == '*' && allStars rest

/-- `insert_sorted(queue, item)`: insert before the first strictly
greater element, else append. -/
def insertSorted (queue : List String) (item : String) : List String :=
  match queue with
  | [] => [item]
  | existing :: rest =>
    if item < existing then item :: existing :: rest
    else existing :: insertSorted rest item

/-- Extensional model of Python's `sorted` on a list of keys, realized by
repeated `insert_sorted` (any correct sort produces the same list, since
`eq_of_perm_of_sorted` pins the sorted permutation down). -/
def sortedList (l : List String) : List String := l.foldl insertSorted []

/-- `get_affected_workflows(changed_files, graph)`: the set of keys whose
path patterns match at least one changed file (the per-node `break` on the
first matching file is the `any` short-circuit). -/
def get_affected_workflows (changed_files : List (List Char))
    (G : Graph) : List String :=
  (G.filter (fun p =>
    changed_files.any (fun f => file_matches_patterns f p.2.paths))).map
    Prod.fst

/-- `compute_root_workflows(changed_files, graph)`: affected workflows
with no affected ancestor, sorted.  The ancestor cache prewarming of the
source is pure memoization and is dropped. -/
def compute_root_workflows (changed_files : List (List Char))
    (G : Graph) : List String :=
  let affected := get_affected_workflows changed_files G
  if affected.isEmpty then []
  else
    sortedList (affected.filter (fun w =>
      ((get_all_ancestors w G).filter
        (fun a => decide (a ∈ affected))).isEmpty))

/-- `compute_merge_roots(running_workflows, new_roots, graph)`: union the
two key sets, drop keys absent from the graph, and keep those with no
affected ancestor, sorted. -/
def compute_merge_roots (running_workflows new_roots : List String)
    (G : Graph) : List String :=
  if new_roots.isEmpty then []
  else
    let affected :=
      ((running_workflows ++ new_roots).dedup).filter
        (fun w => (lookupG G w).isSome)
    if affected.isEmpty then []
    else
      sortedList (affected.filter (fun w =>
        ((get_all_ancestors w G).filter
          (fun a => decide (a ∈ affected))).isEmpty))

/-- Spec-side reading of "affected": the workflow is a graph entry whose
path patterns match at least one changed file. -/
def AffectedSpec (G : Graph) (changed_files : List (List Char))
    (w : String) : Prop :=
  ∃ n, lookupG G w = some n ∧
    ∃ f ∈ changed_files, file_matches_patterns f n.paths = true

/-!  ### Topological sorting (`topological_sort`, `topological_sort_levels`)

Python state is embedded explicitly: the `in_degree` dict becomes a total
function `String → Int` whose values are only ever read at keys of the
workflow set (exactly the keys the dict holds), the `while` loops become
fueled recursion (`topological_sort` pops one node per iteration and each
popped node leaves the in-degree-zero queue for good, so `|workflows|`
iterations suffice; `topological_sort_levels` removes at least one node
from `remaining` per iteration, so again `|workflows|` iterations
suffice — that bound is proved as the C5 termination theorem). -/

/-- `_build_in_degree_map(workflows, graph)`: number of `depends_on`
entries (with multiplicity) lying in the workflow set. -/
def buildInDegree (workflows : List String) (G : Graph) : String → Int :=
  fun w =>
    ((dependsOn G w).filter (fun d => decide (d ∈ workflows))).length

/-- One step of `for wf in workflows:` after popping `current` in
`topological_sort`: decrement dependents of `current` and insert the ones
reaching in-degree 0 into the sorted queue. -/
def processOne (G : Graph) (current : String)
    (st : List String × (String → Int)) (wf : String) :
    List String × (String → Int) :=
  if current ∈ dependsOn G wf then
    let d' := st.2 wf - 1
    let deg' := fun x => if x = wf then d' else st.2 x
    if d' = 0 then (insertSorted st.1 wf, deg') else (st.1, deg')
  else st

/-- The `while queue:` loop of `topological_sort`, fueled by the
iteration count. -/
def topoLoopF (G : Graph) (workflows : List String) :
    Nat → List String → (String → Int) → List String → List String
  | 0, _, _, result => result
  | fuel + 1, queue, deg, result =>
    match queue with
    | [] => result
    | current :: rest =>
      let st := workflows.foldl (processOne G current) (rest, deg)
      topoLoopF G workflows fuel st.1 st.2 (result ++ [current])

/-- `topological_sort(workflows, graph)`: Kahn's algorithm over the
subset, with the ready queue seeded sorted and kept sorted. -/
def topological_sort (workflows : List String) (G : Graph) :
    List String :=
  let deg := buildInDegree workflows G
  topoLoopF G workflows workflows.length
    (sortedList (workflows.filter (fun w => decide (deg w = 0)))) deg []

/-- Spec-side Kahn's algorithm in the words of the specification: at each
step the ready nodes (no dependency still remaining) are kept sorted and
the lexicographically smallest is dequeued.  Fueled like the loop it
models; `fuel = remaining.length` always suffices. -/
def kahnMinF (G : Graph) : Nat → List String → List String
  | 0, _ => []
  | fuel + 1, remaining =>
    match sortedList (remaining.filter (fun w =>
        (dependsOn G w).all (fun d => !(decide (d ∈ remaining))))) with
    | [] => []
    | m :: _ => m :: kahnMinF G fuel (remaining.erase m)

/-- The deterministic smallest-ready-node-first Kahn order. -/
def kahnMinQueue (G : Graph) (workflows : List String) : List String :=
  kahnMinF G workflows.length workflows

/-- The remaining (not yet emitted) part of the workflow set. -/
def remOf (workflows result : List String) : List String :=
  workflows.filter (fun w => !(decide (w ∈ result)))

/-- In-degree a node would have counting only dependencies inside `l`. -/
def countDeps (G : Graph) (w : String) (l : List String) : Int :=
  ((dependsOn G w).filter (fun d => decide (d ∈ l))).length

/-- `_sort_key(workflow, graph)`: the `display_order` component, with the
999 sentinel when the node or its `display_order` is missing. -/
def sortKeyOrd (G : Graph) (w : String) : Int :=
  ((lookupG G w).bind WorkflowNode.display_order).getD 999

/-- Strict "comes before" in the `(display_order, key)` tuple order used
inside levels (Python tuple comparison is lexicographic). -/
def keyLT (G : Graph) (a b : String) : Bool :=
  decide (sortKeyOrd G a < sortKeyOrd G b) ||
    (decide (sortKeyOrd G a = sortKeyOrd G b) && decide (a < b))

/-- Insertion preserving the `(display_order, key)` order. -/
def insertByKey (G : Graph) (queue : List String) (item : String) :
    List String :=
  match queue with
  | [] => [item]
  | e :: rest =>
    if keyLT G item e then item :: e :: rest
    else e :: insertByKey G rest item

/-- Extensional model of `sorted(nodes, key=_sort_key)`: the unique
permutation strictly ascending in the tuple order (keys are distinct). -/
def sortByKey (G : Graph) (l : List String) : List String :=
  l.foldl (insertByKey G) []

/-- One step of the level-removal loop of `topological_sort_levels`:
`remaining.remove(wf)`, then decrement the in-degree of every dependent
still remaining. -/
def removeOne (G : Graph) (st : List String × (String → Int))
    (wf : String) : List String × (String → Int) :=
  let rem' := st.1.erase wf
  (rem',
    fun w => if w ∈ rem' ∧ wf ∈ dependsOn G w then st.2 w - 1 else st.2 w)

/-- The `while remaining:` loop of `topological_sort_levels`, fueled by
the iteration count; each iteration removes at least one node, so
`|workflows|` iterations always suffice (the C5 theorem). -/
def levelsLoopF (G : Graph) :
    Nat → List String → (String → Int) → List (List String)
  | 0, _, _ => []
  | fuel + 1, remaining, deg =>
    if remaining.isEmpty then []
    else
      let lvl := sortByKey G (remaining.filter (fun w => decide (deg w = 0)))
      if lvl.isEmpty then []
      else
        let st := lvl.foldl (removeOne G) (remaining, deg)
        lvl :: levelsLoopF G fuel st.1 st.2

/-- `topological_sort_levels(workflows, graph)`. -/
def topological_sort_levels (workflows : List String) (G : Graph) :
    List (List String) :=
  levelsLoopF G workflows.length workflows (buildInDegree workflows G)

/-- Two-node example graph: `b` depends on `a`; `a` triggers on path `x`,
`b` on path `y`. -/
def exampleGraph : Graph :=
  [("a", ⟨[], [['x']], none⟩), ("b", ⟨["a"], [['y']], none⟩)]

/-- Example graph whose single node depends on the absent key `x`. -/
def danglingGraph : Graph := [("b", ⟨["x"], [], none⟩)]

/-- Example cyclic graph: `a` and `b` depend on each other. -/
def cyclicGraph : Graph :=
  [("a", ⟨["b"], [], none⟩), ("b", ⟨["a"], [], none⟩)]

/-!  ### Lemmas and theorems -/

lemma lookupG_isSome_iff_mem_keysOf {G : Graph} {k : String} :
    (lookupG G k).isSome = true ↔ k ∈ keysOf G := by
  induction G with
  | nil => simp [lookupG, keysOf]
  | cons p rest ih =>
    obtain ⟨k', v⟩ := p
    by_cases h : k' = k
    · subst h
      simp [lookupG, keysOf]
    · simp only [lookupG, if_neg h, keysOf, List.map_cons, List.mem_cons]
      rw [ih]
      simp [keysOf, Ne.symm h]

lemma dependsOn_ne_nil_mem_keysOf {G : Graph} {k : String}
    (h : dependsOn G k ≠ []) : k ∈ keysOf G := by
  rw [← lookupG_isSome_iff_mem_keysOf]
  unfold dependsOn at h
  cases hl : lookupG G k with
  | none => rw [hl] at h; simp at h
  | some v => simp [hl]

lemma ancestorsF_sound {G : Graph} {n : Nat} {a w : String}
    (h : a ∈ ancestorsF G n w) : AncRel G a w := by
  induction n generalizing w with
  | zero => simp [ancestorsF] at h
  | succ n ih =>
    simp only [ancestorsF, List.mem_flatMap] at h
    obtain ⟨d, hd, hmem⟩ := h
    rcases List.mem_cons.mp hmem with h1 | h2
    · exact h1 ▸ AncRel.direct hd
    · exact AncRel.trans hd (ih h2)

lemma ancestorsF_mono {G : Graph} {n m : Nat} (hnm : n ≤ m) {a w : String}
    (h : a ∈ ancestorsF G n w) : a ∈ ancestorsF G m w := by
  induction m generalizing n w with
  | zero => interval_cases n; exact h
  | succ m ih =>
    cases n with
    | zero => simp [ancestorsF] at h
    | succ n =>
      simp only [ancestorsF, List.mem_flatMap] at h ⊢
      obtain ⟨d, hd, hmem⟩ := h
      refine ⟨d, hd, ?_⟩
      rcases List.mem_cons.mp hmem with h1 | h2
      · exact h1 ▸ List.mem_cons_self _ _
      · exact List.mem_cons_of_mem _ (ih (Nat.le_of_succ_le_succ hnm) h2)

lemma ancPath_of_ancRel {G : Graph} {a w : String} (h : AncRel G a w) :
    ∃ l, AncPath G l a w := by
  induction h with
  | direct hd => exact ⟨_, AncPath.direct hd⟩
  | trans hd _ ih => exact ⟨_, AncPath.trans hd ih.choose_spec⟩

lemma ancRel_of_ancPath {G : Graph} {l : List String} {a w : String}
    (h : AncPath G l a w) : AncRel G a w := by
  induction h with
  | direct hd => exact AncRel.direct hd
  | trans hd _ ih => exact AncRel.trans hd ih

lemma ancPath_head {G : Graph} {l : List String} {a w : String}
    (h : AncPath G l a w) : ∃ l', l = w :: l' := by
  cases h with
  | direct hd => exact ⟨[], rfl⟩
  | trans hd h' => exact ⟨_, rfl⟩

lemma ancPath_subset_keys {G : Graph} {l : List String} {a w : String}
    (h : AncPath G l a w) : ∀ x ∈ l, x ∈ keysOf G := by
  induction h with
  | direct hd =>
    intro x hx
    simp at hx
    subst hx
    exact dependsOn_ne_nil_mem_keysOf (List.ne_nil_of_mem ‹_›)
  | trans hd _ ih =>
    intro x hx
    rcases List.mem_cons.mp hx with h1 | h2
    · exact h1 ▸ dependsOn_ne_nil_mem_keysOf (List.ne_nil_of_mem hd)
    · exact ih x h2

/-- From any point `x` on a chain there is a chain to the same ancestor no
longer than the original one. -/
lemma ancPath_from_mem {G : Graph} {l : List String} {a v : String}
    (h : AncPath G l a v) : ∀ x ∈ l, ∃ l', AncPath G l' a x ∧
      l'.length ≤ l.length := by
  induction h with
  | direct hd =>
    intro x hx
    simp at hx
    subst hx
    exact ⟨_, AncPath.direct hd, le_refl _⟩
  | trans hd hp ih =>
    intro x hx
    rcases List.mem_cons.mp hx with h1 | h2
    · subst h1
      exact ⟨_, AncPath.trans hd hp, le_refl _⟩
    · obtain ⟨l', hl', hlen⟩ := ih x h2
      exact ⟨l', hl', le_trans hlen (by simp)⟩

/-- A chain with a repeated node can be shortened. -/
lemma ancPath_shorten {G : Graph} {l : List String} {a w : String}
    (h : AncPath G l a w) (hdup : ¬ l.Nodup) :
    ∃ l', l'.length < l.length ∧ AncPath G l' a w := by
  induction h with
  | @direct d w hd => exact absurd (List.nodup_singleton w) hdup
  | @trans a d w l hd hp ih =>
    rw [List.nodup_cons] at hdup
    push_neg at hdup
    by_cases hw : w ∈ l
    · obtain ⟨l', hl', hlen⟩ := ancPath_from_mem hp w hw
      exact ⟨l', by simpa using Nat.lt_succ_of_le hlen, hl'⟩
    · obtain ⟨l', hlen, hl'⟩ := ih (hdup hw)
      exact ⟨w :: l', by simpa using hlen, AncPath.trans hd hl'⟩

lemma ancPath_nodup_aux {G : Graph} {a : String} :
    ∀ n (l : List String) (w : String), l.length = n → AncPath G l a w →
      ∃ l', AncPath G l' a w ∧ l'.Nodup := by
  intro n
  induction n using Nat.strong_induction_on with
  | _ n ih =>
    intro l w hn hl
    by_cases hd : l.Nodup
    · exact ⟨l, hl, hd⟩
    · obtain ⟨l', hlen, hl'⟩ := ancPath_shorten hl hd
      exact ih l'.length (hn ▸ hlen) l' w rfl hl'

/-- Every ancestor is witnessed by a simple (duplicate-free) chain. -/
lemma ancPath_nodup_of_ancRel {G : Graph} {a w : String}
    (h : AncRel G a w) : ∃ l, AncPath G l a w ∧ l.Nodup := by
  obtain ⟨l, hl⟩ := ancPath_of_ancRel h
  exact ancPath_nodup_aux l.length l w rfl hl

lemma ancestorsF_complete_of_path {G : Graph} {l : List String}
    {a w : String} (h : AncPath G l a w) : a ∈ ancestorsF G l.length w := by
  induction h with
  | @direct d w hd =>
    simp only [List.length_singleton, ancestorsF, List.mem_flatMap]
    exact ⟨d, hd, List.mem_cons_self _ _⟩
  | @trans a d w l hd _ ih =>
    simp only [List.length_cons, ancestorsF, List.mem_flatMap]
    exact ⟨d, hd, List.mem_cons_of_mem _ ih⟩

/-- Membership characterization of `get_all_ancestors`: exactly the
transitive closure of `depends_on`. -/
theorem mem_get_all_ancestors {G : Graph} {a w : String} :
    a ∈ get_all_ancestors w G ↔ AncRel G a w := by
  constructor
  · exact ancestorsF_sound
  · intro h
    obtain ⟨l, hl, hnd⟩ := ancPath_nodup_of_ancRel h
    have hsub : l ⊆ keysOf G := fun x hx => ancPath_subset_keys hl x hx
    have hlen : l.length ≤ G.length := by
      have := (List.subperm_of_subset hnd hsub).length_le
      simpa [keysOf] using this
    exact ancestorsF_mono hlen (ancestorsF_complete_of_path hl)

lemma lookupG_mem {G : Graph} {k : String} {n : WorkflowNode}
    (h : lookupG G k = some n) : (k, n) ∈ G := by
  induction G with
  | nil => simp [lookupG] at h
  | cons p rest ih =>
    obtain ⟨k', v⟩ := p
    by_cases hk : k' = k
    · subst hk
      simp [lookupG] at h
      simp [h]
    · simp only [lookupG, if_neg hk] at h
      exact List.mem_cons_of_mem _ (ih h)

lemma mem_lookupG {G : Graph} (hkeys : (keysOf G).Nodup) {k : String}
    {n : WorkflowNode} (h : (k, n) ∈ G) : lookupG G k = some n := by
  induction G with
  | nil => simp at h
  | cons p rest ih =>
    obtain ⟨k', v⟩ := p
    simp only [keysOf, List.map_cons, List.nodup_cons] at hkeys
    rcases List.mem_cons.mp h with h1 | h2
    · obtain ⟨hk, hv⟩ := Prod.mk.injEq .. ▸ h1
      simp [lookupG, hk.symm, hv]
    · have hne : k' ≠ k := by
        intro he
        subst he
        exact hkeys.1 (by simpa [keysOf] using List.mem_map_of_mem Prod.fst h2)
      simp only [lookupG, if_neg hne]
      exact ih hkeys.2 h2

lemma mem_dependsOn_of_pair {G : Graph} (hkeys : (keysOf G).Nodup)
    {d : String} {n : WorkflowNode} (h : (d, n) ∈ G) {k : String}
    (hk : k ∈ n.depends_on) : k ∈ dependsOn G d := by
  simp [dependsOn, mem_lookupG hkeys h, hk]

lemma descendantsF_sound {G : Graph} {fuel : Nat} {m k : String}
    (h : m ∈ descendantsF G fuel k) : DescRel G m k := by
  induction fuel generalizing k with
  | zero => simp [descendantsF] at h
  | succ fuel ih =>
    simp only [descendantsF, List.mem_flatMap] at h
    obtain ⟨p, hp, hmem⟩ := h
    by_cases hdep : k ∈ p.2.depends_on
    · rw [if_pos hdep] at hmem
      rcases List.mem_cons.mp hmem with h1 | h2
      · subst h1
        exact DescRel.direct hp hdep
      · exact DescRel.trans hp hdep (ih h2)
    · rw [if_neg hdep] at hmem
      simp at hmem

lemma descendantsF_mono {G : Graph} {fuel fuel' : Nat} (hf : fuel ≤ fuel')
    {m k : String} (h : m ∈ descendantsF G fuel k) :
    m ∈ descendantsF G fuel' k := by
  induction fuel' generalizing fuel k with
  | zero => interval_cases fuel; exact h
  | succ f ih =>
    cases fuel with
    | zero => simp [descendantsF] at h
    | succ f' =>
      simp only [descendantsF, List.mem_flatMap] at h ⊢
      obtain ⟨p, hp, hmem⟩ := h
      refine ⟨p, hp, ?_⟩
      by_cases hdep : k ∈ p.2.depends_on
      · rw [if_pos hdep] at hmem ⊢
        rcases List.mem_cons.mp hmem with h1 | h2
        · exact h1 ▸ List.mem_cons_self _ _
        · exact List.mem_cons_of_mem _ (ih (Nat.le_of_succ_le_succ hf) h2)
      · rw [if_neg hdep] at hmem
        simp at hmem

lemma descPath_of_descRel {G : Graph} {m k : String} (h : DescRel G m k) :
    ∃ l, DescPath G l m k := by
  induction h with
  | direct hp hdep => exact ⟨_, DescPath.direct hp hdep⟩
  | trans hp hdep _ ih => exact ⟨_, DescPath.trans hp hdep ih.choose_spec⟩

lemma descPath_subset_keys {G : Graph} {l : List String} {m k : String}
    (h : DescPath G l m k) : ∀ x ∈ l, x ∈ keysOf G := by
  induction h with
  | direct hp hdep =>
    intro x hx
    simp at hx
    subst hx
    exact List.mem_map_of_mem Prod.fst hp
  | trans hp hdep _ ih =>
    intro x hx
    rcases List.mem_cons.mp hx with h1 | h2
    · exact h1 ▸ List.mem_map_of_mem Prod.fst hp
    · exact ih x h2

lemma descPath_last {G : Graph} {l : List String} {m k : String}
    (h : DescPath G l m k) : ∃ l₀, l = l₀ ++ [m] := by
  induction h with
  | direct hp hdep => exact ⟨[], rfl⟩
  | @trans m d k n l hp hdep hsub ih =>
    obtain ⟨l₀, hl₀⟩ := ih
    exact ⟨d :: l₀, by simp [hl₀]⟩

lemma descPath_suffix {G : Graph} {l : List String} {m k : String}
    (h : DescPath G l m k) : ∀ l₁ x l₂, l = l₁ ++ x :: l₂ → l₂ ≠ [] →
      DescPath G l₂ m x := by
  induction h with
  | @direct d k n hp hdep =>
    intro l₁ x l₂ hsplit hne
    cases l₁ with
    | nil =>
      simp at hsplit
      exact absurd hsplit.2 hne
    | cons a l₁' =>
      simp at hsplit
  | @trans m d k n l hp hdep hsub ih =>
    intro l₁ x l₂ hsplit hne
    cases l₁ with
    | nil =>
      simp at hsplit
      obtain ⟨hx, hl⟩ := hsplit
      subst hx hl
      exact hsub
    | cons a l₁' =>
      simp at hsplit
      exact ih l₁' x l₂ hsplit.2 hne

lemma descPath_truncate {G : Graph} {l : List String} {m k : String}
    (h : DescPath G l m k) : ∀ l₁ x l₂, l = l₁ ++ x :: l₂ →
      DescPath G (l₁ ++ [x]) x k := by
  induction h with
  | @direct d k n hp hdep =>
    intro l₁ x l₂ hsplit
    cases l₁ with
    | nil =>
      simp at hsplit
      exact hsplit.1 ▸ DescPath.direct hp hdep
    | cons a l₁' =>
      simp at hsplit
  | @trans m d k n l hp hdep hsub ih =>
    intro l₁ x l₂ hsplit
    cases l₁ with
    | nil =>
      simp at hsplit
      exact hsplit.1 ▸ DescPath.direct hp hdep
    | cons a l₁' =>
      simp at hsplit
      obtain ⟨had, hl⟩ := hsplit
      subst had
      exact (List.cons_append .. ▸ DescPath.trans hp hdep (ih l₁' x l₂ hl))

lemma descPath_shorten {G : Graph} {l : List String} {m k : String}
    (h : DescPath G l m k) (hdup : ¬ l.Nodup) :
    ∃ l', l'.length < l.length ∧ DescPath G l' m k := by
  induction h with
  | @direct d k n hp hdep => exact absurd (List.nodup_singleton d) hdup
  | @trans m d k n l hp hdep hsub ih =>
    rw [List.nodup_cons] at hdup
    push_neg at hdup
    by_cases hd : d ∈ l
    · obtain ⟨l₁, l₂, hsplit⟩ := List.append_of_mem hd
      cases hl₂ : l₂ with
      | nil =>
        subst hl₂
        obtain ⟨l₀, hl₀⟩ := descPath_last hsub
        have hdm : d = m := by
          have := congrArg List.getLast? (hsplit.symm.trans hl₀)
          simpa [List.getLast?_concat] using this
        refine ⟨[d], ?_, hdm ▸ DescPath.direct hp hdep⟩
        have : l ≠ [] := List.ne_nil_of_mem hd
        simpa using Nat.lt_succ_of_le (Nat.one_le_iff_ne_zero.mpr
          (by simpa using this))
      | cons b l₂' =>
        have hne : l₂ ≠ [] := by simp [hl₂]
        have hsuf := descPath_suffix hsub l₁ d l₂ hsplit hne
        refine ⟨d :: l₂, ?_, DescPath.trans hp hdep hsuf⟩
        simp only [List.length_cons, hsplit, List.length_append]
        omega
    · obtain ⟨l', hlen, hl'⟩ := ih (hdup hd)
      exact ⟨d :: l', by simpa using hlen, DescPath.trans hp hdep hl'⟩

lemma descPath_nodup_aux {G : Graph} {m : String} :
    ∀ fuel (l : List String) (k : String), l.length = fuel →
      DescPath G l m k → ∃ l', DescPath G l' m k ∧ l'.Nodup := by
  intro fuel
  induction fuel using Nat.strong_induction_on with
  | _ fuel ih =>
    intro l k hf hl
    by_cases hd : l.Nodup
    · exact ⟨l, hl, hd⟩
    · obtain ⟨l', hlen, hl'⟩ := descPath_shorten hl hd
      exact ih l'.length (hf ▸ hlen) l' k rfl hl'

lemma descendantsF_complete_of_path {G : Graph} {l : List String}
    {m k : String} (h : DescPath G l m k) :
    m ∈ descendantsF G l.length k := by
  induction h with
  | @direct d k n hp hdep =>
    simp only [List.length_singleton, descendantsF, List.mem_flatMap]
    exact ⟨(d, n), hp, by simp [hdep]⟩
  | @trans m d k n l hp hdep _ ih =>
    simp only [List.length_cons, descendantsF, List.mem_flatMap]
    exact ⟨(d, n), hp, by simp [hdep, List.mem_cons_of_mem _ ih]⟩

/-- Membership characterization of `get_all_descendants`: exactly the
transitive dependent closure. -/
theorem mem_get_all_descendants {G : Graph} {m k : String} :
    m ∈ get_all_descendants k G ↔ DescRel G m k := by
  constructor
  · exact descendantsF_sound
  · intro h
    obtain ⟨l, hl⟩ := descPath_of_descRel h
    obtain ⟨l', hl', hnd⟩ := descPath_nodup_aux l.length l k rfl hl
    have hsub : l' ⊆ keysOf G := fun x hx => descPath_subset_keys hl' x hx
    have hlen : l'.length ≤ G.length := by
      have := (List.subperm_of_subset hnd hsub).length_le
      simpa [keysOf] using this
    exact descendantsF_mono hlen (descendantsF_complete_of_path hl')

lemma ancRel_append {G : Graph} {d m k : String} (h : AncRel G d m)
    (hk : k ∈ dependsOn G d) : AncRel G k m := by
  induction h with
  | direct hd => exact AncRel.trans hd (AncRel.direct hk)
  | trans hd _ ih => exact AncRel.trans hd ih

lemma descRel_append {G : Graph} {d k m : String} {nm : WorkflowNode}
    (h : DescRel G d k) (hm : (m, nm) ∈ G) (hd : d ∈ nm.depends_on) :
    DescRel G m k := by
  induction h with
  | direct hp hdep => exact DescRel.trans hp hdep (DescRel.direct hm hd)
  | trans hp hdep _ ih => exact DescRel.trans hp hdep ih

lemma descRel_of_mem_dependsOn {G : Graph} {k w : String}
    (hd : k ∈ dependsOn G w) : DescRel G w k := by
  rcases hl : lookupG G w with _ | n
  · simp [dependsOn, hl] at hd
  · exact DescRel.direct (lookupG_mem hl) (by simpa [dependsOn, hl] using hd)

lemma descRel_append_dependsOn {G : Graph} {d k m : String}
    (h : DescRel G d k) (hd : d ∈ dependsOn G m) : DescRel G m k := by
  rcases hl : lookupG G m with _ | n
  · simp [dependsOn, hl] at hd
  · exact descRel_append h (lookupG_mem hl) (by simpa [dependsOn, hl] using hd)

/-- On a graph with unique keys (every Python dict has unique keys), the
descendant relation is the exact inverse of the ancestor relation. -/
theorem descRel_iff_ancRel {G : Graph} (hkeys : (keysOf G).Nodup)
    {m k : String} : DescRel G m k ↔ AncRel G k m := by
  constructor
  · intro h
    induction h with
    | direct hp hdep => exact AncRel.direct (mem_dependsOn_of_pair hkeys hp hdep)
    | trans hp hdep _ ih =>
      exact ancRel_append ih (mem_dependsOn_of_pair hkeys hp hdep)
  · intro h
    induction h with
    | direct hd => exact descRel_of_mem_dependsOn hd
    | trans hd _ ih => exact descRel_append_dependsOn ih hd

lemma acyclic_iff_no_ancRel_self {G : Graph} :
    Acyclic G ↔ ∀ x, ¬ AncRel G x x := by
  constructor
  · intro h x hx
    have hxk : x ∈ keysOf G := by
      cases hx with
      | direct hd => exact dependsOn_ne_nil_mem_keysOf (List.ne_nil_of_mem hd)
      | trans hd _ => exact dependsOn_ne_nil_mem_keysOf (List.ne_nil_of_mem hd)
    exact h x hxk (mem_get_all_ancestors.mpr hx)
  · intro h x _ hx
    exact h x (mem_get_all_ancestors.mp hx)

lemma globF_nil_string : ∀ n (p : List Char), p.length ≤ n →
    globF n p [] = allStars p := by
  intro n
  induction n with
  | zero =>
    intro p hp
    have : p = [] := List.eq_nil_of_length_eq_zero (Nat.le_zero.mp hp)
    subst this
    rfl
  | succ n ih =>
    intro p hp
    cases p with
    | nil => rfl
    | cons c ps =>
      by_cases hc : c = '*'
      · subst hc
        simp only [globF, if_pos rfl, allStars, Bool.or_false]
        rw [ih ps (by simpa using hp)]
        simp
      · have h2 : allStars (c :: ps) = false := by
          simp [allStars, hc]
        rw [h2]
        by_cases hq : c = '?'
        · subst hq
          simp [globF]
        · by_cases hb : c = '['
          · subst hb
            simp only [globF, if_neg hc, if_neg hq]
            cases scanClass ps <;> simp
          · simp [globF, hc, hq, hb]

lemma allStars_replaceStarStar (p : List Char) :
    allStars (replaceStarStar p) = allStars p := by
  induction p using replaceStarStar.induct with
  | case1 => rfl
  | case2 c => rfl
  | case3 c c' rest hstar ih =>
    obtain ⟨h1, h2⟩ := hstar
    subst h1 h2
    simp [replaceStarStar, allStars, ih]
  | case4 c c' rest hstar ih =>
    rw [replaceStarStar, if_neg hstar]
    simp [allStars, ih]

lemma starStarHead_nil_iff {p : List Char} (hss : hasStarStar p = true) :
    starStarHead p = [] ↔ ['*', '*'].isPrefixOf p = true := by
  cases p with
  | nil => simp [hasStarStar] at hss
  | cons c q =>
    cases q with
    | nil => simp [hasStarStar] at hss
    | cons c' rest =>
      by_cases hstar : c = '*' ∧ c' = '*'
      · obtain ⟨h1, h2⟩ := hstar
        subst h1 h2
        simp [starStarHead, List.isPrefixOf]
      · rw [starStarHead, if_neg hstar]
        constructor
        · intro h
          simp at h
        · intro h
          simp [List.isPrefixOf] at h
          exact absurd ⟨h.1.symm, h.2.symm⟩ hstar

lemma hasStarStar_of_isPrefixOf {p : List Char}
    (h : ['*', '*'].isPrefixOf p = true) : hasStarStar p = true := by
  cases p with
  | nil => simp [List.isPrefixOf] at h
  | cons c q =>
    cases q with
    | nil => simp [List.isPrefixOf] at h
    | cons c' rest =>
      simp [List.isPrefixOf] at h
      obtain ⟨h1, h2⟩ := h
      subst h1
      subst h2
      simp [hasStarStar]

lemma fnmatch_nil (p : List Char) : fnmatch [] p = allStars p := by
  unfold fnmatch
  exact globF_nil_string _ p (by simp)

/-- What the code actually does on the empty file path: the empty string
matches exactly the patterns that start with `**` (the prefix check
against the empty literal prefix succeeds) and the patterns made only of
`*`s (which fnmatch lets match the empty string). -/
theorem file_matches_pattern_nil (p : List Char) :
    file_matches_pattern [] p =
      (['*', '*'].isPrefixOf p || allStars p) := by
  unfold file_matches_pattern
  by_cases hss : hasStarStar p = true
  · rw [if_pos hss, fnmatch_nil, allStars_replaceStarStar, fnmatch_nil]
    have hpre : (starStarHead p).isPrefixOf ([] : List Char) =
        (['*', '*'].isPrefixOf p) := by
      cases hsh : starStarHead p with
      | nil =>
        have := (starStarHead_nil_iff hss).mp hsh
        simp [List.isPrefixOf, this]
      | cons a l =>
        have : ¬ (['*', '*'].isPrefixOf p = true) := by
          intro hc
          rw [(starStarHead_nil_iff hss).mpr hc] at hsh
          simp at hsh
        simp [List.isPrefixOf, Bool.eq_false_iff.mpr this]
    rw [hpre]
    cases hall : allStars p <;> cases hpp : ['*', '*'].isPrefixOf p <;> simp
  · rw [if_neg hss, fnmatch_nil]
    have : ['*', '*'].isPrefixOf p = false := by
      cases h : ['*', '*'].isPrefixOf p
      · rfl
      · exact absurd (hasStarStar_of_isPrefixOf h) hss
    rw [this]
    simp

lemma mem_insertSorted {q : List String} {i x : String} :
    x ∈ insertSorted q i ↔ x = i ∨ x ∈ q := by
  induction q with
  | nil => simp [insertSorted]
  | cons e rest ih =>
    rw [insertSorted]
    by_cases h : i < e
    · rw [if_pos h]
      simp
    · rw [if_neg h]
      simp only [List.mem_cons, ih]
      tauto

lemma insertSorted_sorted {q : List String} {i : String}
    (h : q.Sorted (· ≤ ·)) : (insertSorted q i).Sorted (· ≤ ·) := by
  induction q with
  | nil => simp [insertSorted]
  | cons e rest ih =>
    rw [List.sorted_cons] at h
    by_cases hlt : i < e
    · rw [insertSorted, if_pos hlt, List.sorted_cons]
      refine ⟨?_, List.sorted_cons.mpr h⟩
      intro b hb
      rcases List.mem_cons.mp hb with h1 | h2
      · exact h1 ▸ le_of_lt hlt
      · exact le_trans (le_of_lt hlt) (h.1 b h2)
    · rw [insertSorted, if_neg hlt, List.sorted_cons]
      refine ⟨?_, ih h.2⟩
      intro b hb
      rcases mem_insertSorted.mp hb with h1 | h2
      · exact h1 ▸ le_of_not_lt hlt
      · exact h.1 b h2

lemma insertSorted_perm (q : List String) (i : String) :
    List.Perm (insertSorted q i) (i :: q) := by
  induction q with
  | nil => rfl
  | cons e rest ih =>
    by_cases h : i < e
    · rw [insertSorted, if_pos h]
    · rw [insertSorted, if_neg h]
      exact List.Perm.trans (ih.cons e) (List.Perm.swap _ _ _)

lemma sortedList_perm (l : List String) : List.Perm (sortedList l) l := by
  suffices h : ∀ acc : List String,
      List.Perm (l.foldl insertSorted acc) (acc ++ l) by
    simpa using h []
  induction l with
  | nil => simp
  | cons x l ih =>
    intro acc
    have h1 : List.Perm (l.foldl insertSorted (insertSorted acc x))
        (insertSorted acc x ++ l) := ih _
    have h2 : List.Perm (insertSorted acc x ++ l) ((x :: acc) ++ l) :=
      (insertSorted_perm acc x).append_right l
    have h3 : List.Perm ((x :: acc) ++ l) (acc ++ x :: l) := by
      simpa using
        (List.perm_middle.symm :
          List.Perm (x :: (acc ++ l)) (acc ++ x :: l))
    exact List.Perm.trans h1 (List.Perm.trans h2 h3)

lemma sortedList_sorted (l : List String) :
    (sortedList l).Sorted (· ≤ ·) := by
  suffices h : ∀ acc : List String, acc.Sorted (· ≤ ·) →
      (l.foldl insertSorted acc).Sorted (· ≤ ·) by
    exact h [] (by simp)
  induction l with
  | nil => exact fun acc h => h
  | cons x l ih => exact fun acc h => ih _ (insertSorted_sorted h)

lemma mem_sortedList {l : List String} {x : String} :
    x ∈ sortedList l ↔ x ∈ l := (sortedList_perm l).mem_iff

lemma sortedList_nodup {l : List String} (h : l.Nodup) :
    (sortedList l).Nodup := ((sortedList_perm l).nodup_iff).mpr h

lemma sortedList_sorted_lt {l : List String} (h : l.Nodup) :
    (sortedList l).Sorted (· < ·) :=
  (sortedList_sorted l).lt_of_le (sortedList_nodup h)

/-- Two strictly sorted key lists with the same members are equal. -/
lemma sorted_lt_eq_of_mem_iff {l₁ l₂ : List String}
    (h₁ : l₁.Sorted (· < ·)) (h₂ : l₂.Sorted (· < ·))
    (hmem : ∀ x, x ∈ l₁ ↔ x ∈ l₂) : l₁ = l₂ := by
  have hd₁ : l₁.Nodup := h₁.nodup
  have hd₂ : l₂.Nodup := h₂.nodup
  have hperm : List.Perm l₁ l₂ :=
    (List.perm_ext_iff_of_nodup hd₁ hd₂).mpr hmem
  exact List.eq_of_perm_of_sorted hperm h₁ h₂

lemma get_affected_nodup {G : Graph} (hkeys : (keysOf G).Nodup)
    (changed_files : List (List Char)) :
    (get_affected_workflows changed_files G).Nodup := by
  apply List.Nodup.sublist _ hkeys
  exact (List.filter_sublist G).map Prod.fst

lemma mem_get_affected {G : Graph} (hkeys : (keysOf G).Nodup)
    (changed_files : List (List Char)) {w : String} :
    w ∈ get_affected_workflows changed_files G ↔
      AffectedSpec G changed_files w := by
  unfold get_affected_workflows AffectedSpec
  rw [List.mem_map]
  constructor
  · rintro ⟨⟨k, n⟩, hp, rfl⟩
    rw [List.mem_filter] at hp
    refine ⟨n, mem_lookupG hkeys hp.1, ?_⟩
    simpa using List.any_eq_true.mp hp.2
  · rintro ⟨n, hl, f, hf, hm⟩
    refine ⟨(w, n), ?_, rfl⟩
    rw [List.mem_filter]
    exact ⟨lookupG_mem hl, List.any_eq_true.mpr ⟨f, hf, hm⟩⟩

/-- C1 in spec-side terms, established generically: membership + order +
empty case for `compute_root_workflows`. -/
lemma compute_root_workflows_spec {G : Graph}
    (hkeys : (keysOf G).Nodup) (changed_files : List (List Char)) :
    (compute_root_workflows changed_files G).Sorted (· < ·) ∧
    (∀ w, w ∈ compute_root_workflows changed_files G ↔
      (AffectedSpec G changed_files w ∧
        ∀ a, AncRel G a w → ¬ AffectedSpec G changed_files a)) ∧
    ((∀ w, ¬ AffectedSpec G changed_files w) →
      compute_root_workflows changed_files G = []) := by
  unfold compute_root_workflows
  set affected := get_affected_workflows changed_files G with haff
  by_cases hemp : affected.isEmpty
  · rw [if_pos hemp]
    rw [List.isEmpty_iff] at hemp
    refine ⟨by simp, ?_, fun _ => rfl⟩
    intro w
    simp only [List.not_mem_nil, false_iff]
    rintro ⟨hw, -⟩
    rw [← mem_get_affected hkeys changed_files] at hw
    rw [← haff, hemp] at hw
    simp at hw
  · rw [if_neg hemp]
    have hnd : affected.Nodup := get_affected_nodup hkeys changed_files
    refine ⟨sortedList_sorted_lt (hnd.filter _), ?_, ?_⟩
    · intro w
      rw [mem_sortedList, List.mem_filter]
      rw [mem_get_affected hkeys changed_files]
      constructor
      · rintro ⟨hw, hq⟩
        refine ⟨hw, ?_⟩
        intro a ha haff'
        rw [List.isEmpty_iff, List.filter_eq_nil_iff] at hq
        refine hq a (mem_get_all_ancestors.mpr ha) ?_
        rw [← mem_get_affected hkeys changed_files] at haff'
        simpa using haff'
      · rintro ⟨hw, hq⟩
        refine ⟨hw, ?_⟩
        rw [List.isEmpty_iff, List.filter_eq_nil_iff]
        intro a ha hmem
        have := mem_get_all_ancestors.mp ha
        refine hq a this ?_
        rw [← mem_get_affected hkeys changed_files]
        simpa using hmem
    · intro hnone
      exfalso
      rw [List.isEmpty_iff] at hemp
      rcases List.exists_mem_of_ne_nil affected hemp with ⟨w, hw⟩
      exact hnone w
        ((mem_get_affected hkeys changed_files).mp hw)

lemma mem_merge_affected {G : Graph} {running new_roots : List String}
    {w : String} :
    w ∈ ((running ++ new_roots).dedup).filter
        (fun w => (lookupG G w).isSome) ↔
      ((w ∈ running ∨ w ∈ new_roots) ∧ w ∈ keysOf G) := by
  rw [List.mem_filter, List.mem_dedup, List.mem_append,
    lookupG_isSome_iff_mem_keysOf]

/-- C2 in spec-side terms, established generically: empty-guard +
membership + order for `compute_merge_roots`. -/
lemma compute_merge_roots_spec (G : Graph)
    (running new_roots : List String) :
    (new_roots = [] → compute_merge_roots running new_roots G = []) ∧
    (compute_merge_roots running new_roots G).Sorted (· < ·) ∧
    (∀ w, w ∈ compute_merge_roots running new_roots G ↔
      (new_roots ≠ [] ∧ (w ∈ running ∨ w ∈ new_roots) ∧ w ∈ keysOf G ∧
        ∀ a, AncRel G a w →
          ¬ ((a ∈ running ∨ a ∈ new_roots) ∧ a ∈ keysOf G))) := by
  unfold compute_merge_roots
  by_cases hnew : new_roots.isEmpty
  · rw [if_pos hnew]
    rw [List.isEmpty_iff] at hnew
    exact ⟨fun _ => rfl, by simp, fun w => by simp [hnew]⟩
  · rw [if_neg hnew]
    rw [List.isEmpty_iff] at hnew
    set affected := ((running ++ new_roots).dedup).filter
      (fun w => (lookupG G w).isSome) with haff
    have hnd : affected.Nodup := (List.nodup_dedup _).filter _
    by_cases hemp : affected.isEmpty
    · rw [if_pos hemp]
      rw [List.isEmpty_iff] at hemp
      refine ⟨fun h => absurd h hnew, by simp, ?_⟩
      intro w
      simp only [List.not_mem_nil, false_iff]
      rintro ⟨-, hw, hk, -⟩
      have : w ∈ affected := mem_merge_affected.mpr ⟨hw, hk⟩
      rw [hemp] at this
      simp at this
    · rw [if_neg hemp]
      refine ⟨fun h => absurd h hnew, sortedList_sorted_lt (hnd.filter _), ?_⟩
      intro w
      rw [mem_sortedList, List.mem_filter, mem_merge_affected]
      constructor
      · rintro ⟨⟨hw, hk⟩, hq⟩
        refine ⟨hnew, hw, hk, ?_⟩
        intro a ha hcon
        rw [List.isEmpty_iff, List.filter_eq_nil_iff] at hq
        refine hq a (mem_get_all_ancestors.mpr ha) ?_
        rw [decide_eq_true_eq, haff]
        exact mem_merge_affected.mpr hcon
      · rintro ⟨-, hw, hk, hq⟩
        refine ⟨⟨hw, hk⟩, ?_⟩
        rw [List.isEmpty_iff, List.filter_eq_nil_iff]
        intro a ha hmem
        have hmem' : a ∈ affected := by simpa using hmem
        rw [haff] at hmem'
        exact hq a (mem_get_all_ancestors.mp ha) (mem_merge_affected.mp hmem')

lemma insertSorted_sorted_lt {q : List String} {i : String}
    (h : q.Sorted (· < ·)) (hni : i ∉ q) :
    (insertSorted q i).Sorted (· < ·) := by
  induction q with
  | nil => simp [insertSorted]
  | cons e rest ih =>
    rw [List.sorted_cons] at h
    have hie : i ≠ e := fun he => hni (he ▸ List.mem_cons_self _ _)
    by_cases hlt : i < e
    · rw [insertSorted, if_pos hlt, List.sorted_cons]
      refine ⟨?_, List.sorted_cons.mpr h⟩
      intro b hb
      rcases List.mem_cons.mp hb with h1 | h2
      · exact h1 ▸ hlt
      · exact lt_trans hlt (h.1 b h2)
    · rw [insertSorted, if_neg hlt, List.sorted_cons]
      refine ⟨?_, ih h.2 (fun hm => hni (List.mem_cons_of_mem _ hm))⟩
      intro b hb
      rcases mem_insertSorted.mp hb with h1 | h2
      · subst h1
        exact lt_of_le_of_ne (le_of_not_lt hlt) (Ne.symm hie)
      · exact h.1 b h2

lemma countDeps_zero_iff {G : Graph} {w : String} {l : List String} :
    countDeps G w l = 0 ↔ ∀ d ∈ dependsOn G w, d ∉ l := by
  unfold countDeps
  rw [show ((0 : Int) = ((0 : Nat) : Int)) from rfl, Int.natCast_inj]
  rw [List.length_eq_zero, List.filter_eq_nil_iff]
  simp

lemma countDeps_mono {G : Graph} {w : String} {l l' : List String}
    (h : ∀ d, d ∈ l' → d ∈ l) : countDeps G w l' ≤ countDeps G w l := by
  unfold countDeps
  have hsub : List.Sublist
      ((dependsOn G w).filter (fun d => decide (d ∈ l')))
      ((dependsOn G w).filter (fun d => decide (d ∈ l))) := by
    apply List.monotone_filter_right
    intro a ha
    simp at ha ⊢
    exact h a ha
  exact_mod_cast hsub.length_le

lemma countDeps_nonneg {G : Graph} {w : String} {l : List String} :
    0 ≤ countDeps G w l := Int.natCast_nonneg _

/-- Net effect of the `for wf in workflows:` scan after popping
`current`: every dependent of `current` in the set is decremented once,
and exactly the nodes thereby reaching in-degree 0 are inserted into the
(still sorted) queue. -/
lemma foldl_processOne_spec (G : Graph) (current : String) :
    ∀ (ws q : List String) (deg : String → Int), ws.Nodup →
      q.Sorted (· < ·) →
      (∀ w ∈ ws, current ∈ dependsOn G w ∧ deg w = 1 → w ∉ q) →
      (∀ x, (ws.foldl (processOne G current) (q, deg)).2 x =
        if x ∈ ws ∧ current ∈ dependsOn G x then deg x - 1 else deg x) ∧
      (∀ x, x ∈ (ws.foldl (processOne G current) (q, deg)).1 ↔
        (x ∈ q ∨ (x ∈ ws ∧ current ∈ dependsOn G x ∧ deg x = 1))) ∧
      (ws.foldl (processOne G current) (q, deg)).1.Sorted (· < ·) := by
  intro ws
  induction ws with
  | nil =>
    intro q deg _ hq _
    refine ⟨fun x => by simp, fun x => by simp, hq⟩
  | cons w₀ ws' ih =>
    intro q deg hnd hq hfresh
    rw [List.nodup_cons] at hnd
    have hstep : (w₀ :: ws').foldl (processOne G current) (q, deg) =
        ws'.foldl (processOne G current) (processOne G current (q, deg) w₀) :=
      rfl
    by_cases hdep : current ∈ dependsOn G w₀
    · have hd1 : processOne G current (q, deg) w₀ =
          (if deg w₀ - 1 = 0 then insertSorted q w₀ else q,
            fun x => if x = w₀ then deg w₀ - 1 else deg x) := by
        rw [processOne, if_pos hdep]
        by_cases hz : deg w₀ - 1 = 0
        · rw [if_pos hz, if_pos hz]
        · rw [if_neg hz, if_neg hz]
      set deg₁ : String → Int :=
        fun x => if x = w₀ then deg w₀ - 1 else deg x with hdeg₁
      set q₁ : List String :=
        if deg w₀ - 1 = 0 then insertSorted q w₀ else q with hq₁
      have hq₁sorted : q₁.Sorted (· < ·) := by
        rw [hq₁]
        by_cases hz : deg w₀ - 1 = 0
        · rw [if_pos hz]
          exact insertSorted_sorted_lt hq
            (hfresh w₀ (List.mem_cons_self _ _) ⟨hdep, by omega⟩)
        · rw [if_neg hz]
          exact hq
      have hmemq₁ : ∀ x, x ∈ q₁ ↔
          (x ∈ q ∨ (x = w₀ ∧ deg w₀ = 1)) := by
        intro x
        rw [hq₁]
        by_cases hz : deg w₀ - 1 = 0
        · rw [if_pos hz, mem_insertSorted]
          constructor
          · rintro (h1 | h2)
            · exact Or.inr ⟨h1, by omega⟩
            · exact Or.inl h2
          · rintro (h1 | ⟨h2, -⟩)
            · exact Or.inr h1
            · exact Or.inl h2
        · rw [if_neg hz]
          constructor
          · exact Or.inl
          · rintro (h1 | ⟨-, h2⟩)
            · exact h1
            · omega
      have hfresh₁ : ∀ w ∈ ws',
          current ∈ dependsOn G w ∧ deg₁ w = 1 → w ∉ q₁ := by
        intro w hw ⟨hw1, hw2⟩ hmem
        have hwne : w ≠ w₀ := fun he => hnd.1 (he ▸ hw)
        simp only [hdeg₁, if_neg hwne] at hw2
        rcases (hmemq₁ w).mp hmem with h1 | ⟨h2, -⟩
        · exact hfresh w (List.mem_cons_of_mem _ hw) ⟨hw1, hw2⟩ h1
        · exact hwne h2
      obtain ⟨ihdeg, ihmem, ihsort⟩ := ih q₁ deg₁ hnd.2 hq₁sorted hfresh₁
      have hrw : (w₀ :: ws').foldl (processOne G current) (q, deg) =
          ws'.foldl (processOne G current) (q₁, deg₁) := by
        rw [hstep, hd1]
      refine ⟨?_, ?_, by rw [hrw]; exact ihsort⟩
      · intro x
        rw [hrw, ihdeg x]
        by_cases hx : x = w₀
        · subst hx
          rw [hdeg₁]
          have hxnot : x ∉ ws' := hnd.1
          simp [hxnot, hdep]
        · rw [hdeg₁]
          simp only [if_neg hx]
          by_cases hx' : x ∈ ws'
          · simp [hx', hx]
          · simp [hx', hx]
      · intro x
        rw [hrw, ihmem x, hmemq₁ x]
        by_cases hx : x = w₀
        · subst hx
          have hxnot : x ∉ ws' := hnd.1
          rw [hdeg₁]
          simp [hxnot, hdep]
        · rw [hdeg₁]
          simp only [if_neg hx]
          constructor
          · rintro ((h1 | ⟨h2, -⟩) | h3)
            · exact Or.inl h1
            · exact absurd h2 hx
            · exact Or.inr ⟨List.mem_cons_of_mem _ h3.1, h3.2⟩
          · rintro (h1 | ⟨h2, h3⟩)
            · exact Or.inl (Or.inl h1)
            · rcases List.mem_cons.mp h2 with h4 | h5
              · exact absurd h4 hx
              · exact Or.inr ⟨h5, h3⟩
    · have hd1 : processOne G current (q, deg) w₀ = (q, deg) := by
        rw [processOne, if_neg hdep]
      obtain ⟨ihdeg, ihmem, ihsort⟩ := ih q deg hnd.2 hq
        (fun w hw h => hfresh w (List.mem_cons_of_mem _ hw) h)
      have hrw : (w₀ :: ws').foldl (processOne G current) (q, deg) =
          ws'.foldl (processOne G current) (q, deg) := by
        rw [hstep, hd1]
      refine ⟨?_, ?_, by rw [hrw]; exact ihsort⟩
      · intro x
        rw [hrw, ihdeg x]
        by_cases hx : x = w₀
        · subst hx
          simp [hdep]
        · by_cases hx' : x ∈ ws' <;> simp [hx', hx]
      · intro x
        rw [hrw, ihmem x]
        by_cases hx : x = w₀
        · subst hx
          simp [hdep]
        · constructor
          · rintro (h1 | h2)
            · exact Or.inl h1
            · exact Or.inr ⟨List.mem_cons_of_mem _ h2.1, h2.2⟩
          · rintro (h1 | ⟨h2, h3⟩)
            · exact Or.inl h1
            · rcases List.mem_cons.mp h2 with h4 | h5
              · exact absurd h4 hx
              · exact Or.inr ⟨h5, h3⟩

lemma mem_remOf {ws res : List String} {x : String} :
    x ∈ remOf ws res ↔ x ∈ ws ∧ x ∉ res := by
  unfold remOf
  rw [List.mem_filter]
  simp

lemma remOf_nodup {ws : List String} (h : ws.Nodup) (res : List String) :
    (remOf ws res).Nodup := h.filter _

lemma remOf_nil (ws : List String) : remOf ws [] = ws := by
  unfold remOf
  apply List.filter_eq_self.mpr
  simp

lemma remOf_append_singleton {ws res : List String} (hws : ws.Nodup)
    (c : String) :
    remOf ws (res ++ [c]) = (remOf ws res).erase c := by
  rw [(remOf_nodup hws res).erase_eq_filter c]
  unfold remOf
  rw [List.filter_filter]
  apply List.filter_congr
  intro x _
  by_cases h1 : x ∈ res <;> by_cases h2 : x = c <;>
    simp [h1, h2]

lemma countDeps_pos {G : Graph} {x c : String} {l : List String}
    (hc : c ∈ dependsOn G x) (hl : c ∈ l) : 1 ≤ countDeps G x l := by
  unfold countDeps
  have : c ∈ (dependsOn G x).filter (fun d => decide (d ∈ l)) :=
    List.mem_filter.mpr ⟨hc, by simpa using hl⟩
  have hlen := List.length_pos.mpr (List.ne_nil_of_mem this)
  exact_mod_cast hlen

lemma length_filter_erase {c : String} {l : List String} (hl : l.Nodup)
    (hc : c ∈ l) :
    ∀ deps : List String, deps.Nodup →
      ((deps.filter (fun d => decide (d ∈ l.erase c))).length : Int) =
        ((deps.filter (fun d => decide (d ∈ l))).length : Int) -
          (if c ∈ deps then 1 else 0) := by
  intro deps
  induction deps with
  | nil => simp
  | cons d ds ih =>
    intro hnd
    rw [List.nodup_cons] at hnd
    have ih' := ih hnd.2
    rw [List.filter_cons, List.filter_cons]
    by_cases hdc : d = c
    · have h1 : (decide (d ∈ l.erase c)) = false := by
        rw [hdc]
        simp [hl.not_mem_erase]
      have h2 : (decide (d ∈ l)) = true := by
        rw [hdc]
        simpa using hc
      rw [h1, h2]
      have hcds : c ∉ ds := hdc ▸ hnd.1
      have hcmem : c ∈ d :: ds := List.mem_cons.mpr (Or.inl hdc.symm)
      rw [if_neg hcds] at ih'
      simp only [Bool.false_eq_true, if_false, if_true, List.length_cons,
        if_pos hcmem]
      rw [ih']
      push_cast
      omega
    · have heq : (decide (d ∈ l.erase c)) = (decide (d ∈ l)) := by
        by_cases hd : d ∈ l
        · simp [hd, (List.mem_erase_of_ne hdc).mpr hd]
        · have : d ∉ l.erase c := fun hmem =>
            hd (List.mem_of_mem_erase hmem)
          simp [hd, this]
      rw [heq]
      have hmemc : (c ∈ d :: ds) = (c ∈ ds) := by
        simp [Ne.symm hdc]
      simp only [hmemc]
      by_cases hd : d ∈ l
      · have h2 : (decide (d ∈ l)) = true := by simpa using hd
        rw [h2]
        simp only [if_true, List.length_cons]
        by_cases hcds : c ∈ ds
        · rw [if_pos hcds] at ih' ⊢
          push_cast at ih' ⊢
          omega
        · rw [if_neg hcds] at ih' ⊢
          push_cast at ih' ⊢
          omega
      · have h2 : (decide (d ∈ l)) = false := by simpa using hd
        rw [h2]
        simp only [Bool.false_eq_true, if_false]
        exact ih'

lemma countDeps_erase {G : Graph} {w c : String} {l : List String}
    (hnd : (dependsOn G w).Nodup) (hl : l.Nodup) (hc : c ∈ l) :
    countDeps G w (l.erase c) =
      countDeps G w l - (if c ∈ dependsOn G w then 1 else 0) := by
  unfold countDeps
  exact length_filter_erase hl hc _ hnd

/-- The loop invariant of `topological_sort` ties every source state to
the spec-side min-dequeue recursion: the queue is the sorted list of
remaining in-degree-zero nodes, the in-degree map counts remaining
in-subset dependencies, and every already-emitted node has no remaining
dependencies. -/
lemma topoLoopF_eq_kahnMinF (G : Graph) (ws : List String)
    (hws : ws.Nodup) (hdeps : ∀ w ∈ ws, (dependsOn G w).Nodup) :
    ∀ (fuel : Nat) (queue : List String) (deg : String → Int)
      (result : List String),
      queue.Sorted (· < ·) →
      (∀ w, w ∈ queue ↔ (w ∈ remOf ws result ∧ deg w = 0)) →
      (∀ w ∈ ws, deg w = countDeps G w (remOf ws result)) →
      (∀ w ∈ ws, w ∉ remOf ws result →
        countDeps G w (remOf ws result) = 0) →
      (remOf ws result).length ≤ fuel →
      topoLoopF G ws fuel queue deg result =
        result ++ kahnMinF G fuel (remOf ws result) := by
  intro fuel
  induction fuel with
  | zero =>
    intro queue deg result _ _ _ _ _
    simp [topoLoopF, kahnMinF]
  | succ fuel ih =>
    intro queue deg result hsort hqmem hdeg hdone hlen
    have hremsub : ∀ x, x ∈ remOf ws result → x ∈ ws :=
      fun x hx => (mem_remOf.mp hx).1
    cases queue with
    | nil =>
      have hfilt : (remOf ws result).filter (fun w =>
          (dependsOn G w).all
            (fun d => !(decide (d ∈ remOf ws result)))) = [] := by
        rw [List.filter_eq_nil_iff]
        intro w hw hp
        have hz : countDeps G w (remOf ws result) = 0 := by
          rw [countDeps_zero_iff]
          intro d hd
          have := List.all_eq_true.mp hp d hd
          simpa using this
        have : w ∈ ([] : List String) :=
          (hqmem w).mpr ⟨hw, (hdeg w (hremsub w hw)).trans hz⟩
        simp at this
      rw [show topoLoopF G ws (fuel + 1) [] deg result = result from rfl]
      rw [kahnMinF, hfilt]
      simp [sortedList]
    | cons c q' =>
      have hc : c ∈ remOf ws result ∧ deg c = 0 :=
        (hqmem c).mp (List.mem_cons_self _ _)
      have hcws : c ∈ ws := hremsub c hc.1
      have hsorthead := List.sorted_cons.mp hsort
      have hsort' : q'.Sorted (· < ·) := hsorthead.2
      have hcq' : c ∉ q' := fun hm => lt_irrefl c (hsorthead.1 c hm)
      have hready : sortedList ((remOf ws result).filter (fun w =>
          (dependsOn G w).all
            (fun d => !(decide (d ∈ remOf ws result))))) = c :: q' := by
        apply sorted_lt_eq_of_mem_iff
        · exact sortedList_sorted_lt ((remOf_nodup hws result).filter _)
        · exact hsort
        · intro x
          rw [mem_sortedList, List.mem_filter]
          constructor
          · rintro ⟨hx, hp⟩
            refine (hqmem x).mpr ⟨hx, ?_⟩
            rw [hdeg x (hremsub x hx), countDeps_zero_iff]
            intro d hd
            have := List.all_eq_true.mp hp d hd
            simpa using this
          · intro hx
            obtain ⟨hx1, hx2⟩ := (hqmem x).mp hx
            refine ⟨hx1, List.all_eq_true.mpr ?_⟩
            intro d hd
            have hz : countDeps G x (remOf ws result) = 0 := by
              rw [← hdeg x (hremsub x hx1)]
              exact hx2
            rw [countDeps_zero_iff] at hz
            simpa using hz d hd
      have hfresh : ∀ w ∈ ws,
          c ∈ dependsOn G w ∧ deg w = 1 → w ∉ q' := by
        rintro w hw ⟨-, h2⟩ hmem
        have := ((hqmem w).mp (List.mem_cons_of_mem _ hmem)).2
        omega
      obtain ⟨hfdeg, hfmem, hfsort⟩ :=
        foldl_processOne_spec G c ws q' deg hws hsort' hfresh
      have hrem' : remOf ws (result ++ [c]) = (remOf ws result).erase c :=
        remOf_append_singleton hws c
      have hdeg' : ∀ w ∈ ws,
          (ws.foldl (processOne G c) (q', deg)).2 w =
            countDeps G w (remOf ws (result ++ [c])) := by
        intro w hw
        rw [hrem', hfdeg w,
          countDeps_erase (hdeps w hw) (remOf_nodup hws result) hc.1]
        by_cases hcd : c ∈ dependsOn G w
        · rw [if_pos ⟨hw, hcd⟩, if_pos hcd, hdeg w hw]
        · rw [if_neg (fun h => hcd h.2), if_neg hcd, hdeg w hw]
          omega
      have hqmem' : ∀ x, x ∈ (ws.foldl (processOne G c) (q', deg)).1 ↔
          (x ∈ remOf ws (result ++ [c]) ∧
            (ws.foldl (processOne G c) (q', deg)).2 x = 0) := by
        intro x
        rw [hfmem x, hrem', (remOf_nodup hws result).mem_erase_iff,
          hfdeg x]
        constructor
        · rintro (hx | ⟨hxws, hxc, hx1⟩)
          · obtain ⟨hxrem, hxdeg⟩ :=
              (hqmem x).mp (List.mem_cons_of_mem _ hx)
            have hxne : x ≠ c := fun he => hcq' (he ▸ hx)
            have hcd : c ∉ dependsOn G x := by
              intro hcd
              have h1 := countDeps_pos hcd hc.1
              have h2 := hdeg x (hremsub x hxrem)
              omega
            refine ⟨⟨hxne, hxrem⟩, ?_⟩
            rw [if_neg (fun h => hcd h.2)]
            exact hxdeg
          · have hxrem : x ∈ remOf ws result := by
              by_contra hxnot
              have h1 := hdone x hxws hxnot
              have h2 := hdeg x hxws
              omega
            have hxne : x ≠ c := by
              intro he
              rw [he] at hx1
              have := hc.2
              omega
            refine ⟨⟨hxne, hxrem⟩, ?_⟩
            rw [if_pos ⟨hxws, hxc⟩]
            omega
        · rintro ⟨⟨hxne, hxrem⟩, hx0⟩
          have hxws := hremsub x hxrem
          by_cases hcd : c ∈ dependsOn G x
          · rw [if_pos ⟨hxws, hcd⟩] at hx0
            exact Or.inr ⟨hxws, hcd, by omega⟩
          · rw [if_neg (fun h => hcd h.2)] at hx0
            have hx : x ∈ c :: q' := (hqmem x).mpr ⟨hxrem, hx0⟩
            rcases List.mem_cons.mp hx with h1 | h2
            · exact absurd h1 hxne
            · exact Or.inl h2
      have hdone' : ∀ w ∈ ws, w ∉ remOf ws (result ++ [c]) →
          countDeps G w (remOf ws (result ++ [c])) = 0 := by
        intro w hw hnot
        rw [hrem'] at hnot ⊢
        have hmono : countDeps G w ((remOf ws result).erase c) ≤
            countDeps G w (remOf ws result) :=
          countDeps_mono (fun d hd => List.mem_of_mem_erase hd)
        have hnn : (0 : Int) ≤ countDeps G w ((remOf ws result).erase c) :=
          countDeps_nonneg
        by_cases hwc : w = c
        · have h1 := hdeg c hcws
          have h2 := hc.2
          rw [hwc] at hmono hnn ⊢
          omega
        · have hwrem : w ∉ remOf ws result := fun hmem =>
            hnot ((remOf_nodup hws result).mem_erase_iff.mpr ⟨hwc, hmem⟩)
          have := hdone w hw hwrem
          omega
      have hlen' : (remOf ws (result ++ [c])).length ≤ fuel := by
        rw [hrem']
        have h1 := List.length_erase_of_mem hc.1
        have h2 : 1 ≤ (remOf ws result).length :=
          List.length_pos.mpr (List.ne_nil_of_mem hc.1)
        omega
      have hIH := ih (ws.foldl (processOne G c) (q', deg)).1
        (ws.foldl (processOne G c) (q', deg)).2 (result ++ [c])
        hfsort hqmem' hdeg' hdone' hlen'
      have hstep : topoLoopF G ws (fuel + 1) (c :: q') deg result =
          topoLoopF G ws fuel (ws.foldl (processOne G c) (q', deg)).1
            (ws.foldl (processOne G c) (q', deg)).2 (result ++ [c]) := rfl
      rw [hstep, hIH, hrem']
      conv_rhs => rw [kahnMinF, hready]
      simp

/-- In the min-dequeue Kahn order, any dependency of an emitted node that
belongs to the remaining subset is emitted strictly earlier. -/
lemma kahnMinF_before (G : Graph) :
    ∀ (fuel : Nat) (remaining l₁ l₂ : List String) (y : String),
      kahnMinF G fuel remaining = l₁ ++ y :: l₂ →
      ∀ x ∈ dependsOn G y, x ∈ remaining → x ∈ l₁ := by
  intro fuel
  induction fuel with
  | zero =>
    intro remaining l₁ l₂ y h
    rw [kahnMinF] at h
    exact absurd h (by simp)
  | succ fuel ih =>
    intro remaining l₁ l₂ y h x hxdep hxrem
    rw [kahnMinF] at h
    cases hready : sortedList (remaining.filter (fun w =>
        (dependsOn G w).all (fun d => !(decide (d ∈ remaining))))) with
    | nil =>
      rw [hready] at h
      exact absurd h (by simp)
    | cons m rest =>
      rw [hready] at h
      simp only [] at h
      cases l₁ with
      | nil =>
        simp only [List.nil_append] at h
        rw [List.cons.injEq] at h
        obtain ⟨hym, -⟩ := h
        have hm : m ∈ sortedList (remaining.filter (fun w =>
            (dependsOn G w).all (fun d => !(decide (d ∈ remaining))))) := by
          rw [hready]
          exact List.mem_cons_self _ _
        rw [mem_sortedList, List.mem_filter] at hm
        have := List.all_eq_true.mp hm.2 x (hym ▸ hxdep)
        simp at this
        exact absurd hxrem this
      | cons a l₁' =>
        simp only [List.cons_append, List.cons.injEq] at h
        obtain ⟨hma, hrec⟩ := h
        by_cases hxm : x = m
        · exact List.mem_cons.mpr (Or.inl (hxm.trans hma))
        · have hxrem' : x ∈ remaining.erase m :=
            (List.mem_erase_of_ne hxm).mpr hxrem
          exact List.mem_cons_of_mem _
            (ih (remaining.erase m) l₁' l₂ y hrec x hxdep hxrem')

/-- `topological_sort` computes exactly the min-dequeue Kahn order. -/
lemma topological_sort_eq_kahnMinQueue (G : Graph) (ws : List String)
    (hws : ws.Nodup) (hdeps : ∀ w ∈ ws, (dependsOn G w).Nodup) :
    topological_sort ws G = kahnMinQueue G ws := by
  unfold topological_sort kahnMinQueue
  have hsorted : (sortedList (ws.filter (fun w =>
      decide (buildInDegree ws G w = 0)))).Sorted (· < ·) :=
    sortedList_sorted_lt (hws.filter _)
  have hqmem : ∀ w, w ∈ sortedList (ws.filter (fun w =>
      decide (buildInDegree ws G w = 0))) ↔
        (w ∈ remOf ws [] ∧ buildInDegree ws G w = 0) := by
    intro w
    rw [mem_sortedList, List.mem_filter, remOf_nil]
    simp
  have hdeg : ∀ w ∈ ws,
      buildInDegree ws G w = countDeps G w (remOf ws []) := by
    intro w _
    rw [remOf_nil]
    rfl
  have hdone : ∀ w ∈ ws, w ∉ remOf ws [] →
      countDeps G w (remOf ws []) = 0 := by
    intro w hw hnot
    rw [remOf_nil] at hnot
    exact absurd hw hnot
  have hlen : (remOf ws []).length ≤ ws.length := by
    rw [remOf_nil]
  have h0 := topoLoopF_eq_kahnMinF G ws hws hdeps ws.length
    (sortedList (ws.filter (fun w => decide (buildInDegree ws G w = 0))))
    (buildInDegree ws G) [] hsorted hqmem hdeg hdone hlen
  rw [remOf_nil] at h0
  simpa using h0

lemma keyLT_irrefl (G : Graph) (a : String) : keyLT G a a = false := by
  simp [keyLT]

lemma keyLT_total (G : Graph) {a b : String} (h : a ≠ b) :
    keyLT G a b = true ∨ keyLT G b a = true := by
  unfold keyLT
  rcases lt_trichotomy (sortKeyOrd G a) (sortKeyOrd G b) with h1 | h1 | h1
  · left
    simp [h1]
  · rcases lt_or_gt_of_ne h with h2 | h2
    · left
      simp [h1, h2]
    · right
      simp [h1.symm, h2]
  · right
    simp [h1]

lemma insertByKey_perm (G : Graph) (q : List String) (i : String) :
    List.Perm (insertByKey G q i) (i :: q) := by
  induction q with
  | nil => rfl
  | cons e rest ih =>
    by_cases h : keyLT G i e
    · rw [insertByKey, if_pos h]
    · rw [insertByKey, if_neg h]
      exact List.Perm.trans (ih.cons e) (List.Perm.swap _ _ _)

lemma mem_insertByKey {G : Graph} {q : List String} {i x : String} :
    x ∈ insertByKey G q i ↔ x = i ∨ x ∈ q := by
  rw [(insertByKey_perm G q i).mem_iff]
  simp

lemma insertByKey_pairwise {G : Graph} {q : List String} {i : String}
    (h : q.Pairwise (fun a b => keyLT G a b = true)) (hni : i ∉ q) :
    (insertByKey G q i).Pairwise (fun a b => keyLT G a b = true) := by
  induction q with
  | nil => simp [insertByKey]
  | cons e rest ih =>
    rw [List.pairwise_cons] at h
    have hie : i ≠ e := fun he => hni (he ▸ List.mem_cons_self _ _)
    by_cases hlt : keyLT G i e
    · rw [insertByKey, if_pos hlt, List.pairwise_cons]
      refine ⟨?_, List.pairwise_cons.mpr h⟩
      intro b hb
      rcases List.mem_cons.mp hb with h1 | h2
      · exact h1 ▸ hlt
      · -- keyLT G i b from keyLT G i e and keyLT G e b: transitivity
        have heb := h.1 b h2
        unfold keyLT at hlt heb ⊢
        simp only [Bool.or_eq_true, Bool.and_eq_true, decide_eq_true_eq]
          at hlt heb ⊢
        rcases hlt with h3 | ⟨h3, h4⟩ <;> rcases heb with h5 | ⟨h5, h6⟩
        · exact Or.inl (lt_trans h3 h5)
        · exact Or.inl (h5 ▸ h3)
        · exact Or.inl (h3 ▸ h5)
        · exact Or.inr ⟨h3.trans h5, lt_trans h4 h6⟩
    · rw [insertByKey, if_neg hlt, List.pairwise_cons]
      refine ⟨?_, ih h.2 (fun hm => hni (List.mem_cons_of_mem _ hm))⟩
      intro b hb
      rcases mem_insertByKey.mp hb with h1 | h2
      · subst h1
        rcases keyLT_total G (Ne.symm hie) with h3 | h3
        · exact h3
        · exact absurd h3 hlt
      · exact h.1 b h2

lemma sortByKey_perm (G : Graph) (l : List String) :
    List.Perm (sortByKey G l) l := by
  suffices h : ∀ acc : List String,
      List.Perm (l.foldl (insertByKey G) acc) (acc ++ l) by
    simpa using h []
  induction l with
  | nil => simp
  | cons x l ih =>
    intro acc
    have h1 := ih (insertByKey G acc x)
    have h2 : List.Perm (insertByKey G acc x ++ l) ((x :: acc) ++ l) :=
      (insertByKey_perm G acc x).append_right l
    have h3 : List.Perm ((x :: acc) ++ l) (acc ++ x :: l) := by
      simpa using
        (List.perm_middle.symm :
          List.Perm (x :: (acc ++ l)) (acc ++ x :: l))
    exact List.Perm.trans h1 (List.Perm.trans h2 h3)

lemma mem_sortByKey {G : Graph} {l : List String} {x : String} :
    x ∈ sortByKey G l ↔ x ∈ l := (sortByKey_perm G l).mem_iff

lemma sortByKey_pairwise {G : Graph} {l : List String} (hl : l.Nodup) :
    (sortByKey G l).Pairwise (fun a b => keyLT G a b = true) := by
  suffices h : ∀ acc : List String,
      acc.Pairwise (fun a b => keyLT G a b = true) → l.Nodup →
      (∀ x ∈ l, x ∉ acc) →
      (l.foldl (insertByKey G) acc).Pairwise
        (fun a b => keyLT G a b = true) by
    exact h [] (by simp) hl (by simp)
  clear hl
  induction l with
  | nil => exact fun acc hacc _ _ => hacc
  | cons x l ih =>
    intro acc hacc hnd hdisj
    rw [List.nodup_cons] at hnd
    refine ih (insertByKey G acc x)
      (insertByKey_pairwise hacc (hdisj x (List.mem_cons_self _ _)))
      hnd.2 ?_
    intro y hy hmem
    rcases mem_insertByKey.mp hmem with h1 | h2
    · exact hnd.1 (h1 ▸ hy)
    · exact hdisj y (List.mem_cons_of_mem _ hy) h2

/-- Net effect of removing one level: the removed nodes leave the
remaining set, and every still-remaining node loses one in-degree per
removed node that is among its dependencies. -/
lemma foldl_removeOne_spec (G : Graph) :
    ∀ (lvl rem : List String) (deg : String → Int), lvl.Nodup →
      rem.Nodup → (∀ x ∈ lvl, x ∈ rem) →
      (lvl.foldl (removeOne G) (rem, deg)).1 =
        rem.filter (fun w => !(decide (w ∈ lvl))) ∧
      (∀ w ∈ (lvl.foldl (removeOne G) (rem, deg)).1,
        (lvl.foldl (removeOne G) (rem, deg)).2 w =
          deg w -
            ((lvl.filter (fun v => decide (v ∈ dependsOn G w))).length :
              Int)) := by
  intro lvl
  induction lvl with
  | nil =>
    intro rem deg _ _ _
    constructor
    · rw [List.foldl_nil]
      symm
      apply List.filter_eq_self.mpr
      simp
    · intro w _
      simp
  | cons v lvl' ih =>
    intro rem deg hlnd hrnd hsub
    rw [List.nodup_cons] at hlnd
    have hv : v ∈ rem := hsub v (List.mem_cons_self _ _)
    have hstep : (v :: lvl').foldl (removeOne G) (rem, deg) =
        lvl'.foldl (removeOne G) (rem.erase v,
          fun w => if w ∈ rem.erase v ∧ v ∈ dependsOn G w
            then deg w - 1 else deg w) := rfl
    have hsub' : ∀ x ∈ lvl', x ∈ rem.erase v := by
      intro x hx
      have hxv : x ≠ v := fun he => hlnd.1 (he ▸ hx)
      exact (List.mem_erase_of_ne hxv).mpr
        (hsub x (List.mem_cons_of_mem _ hx))
    obtain ⟨ih1, ih2⟩ := ih (rem.erase v)
      (fun w => if w ∈ rem.erase v ∧ v ∈ dependsOn G w
        then deg w - 1 else deg w) hlnd.2 (hrnd.erase v) hsub'
    have hremeq : (rem.erase v).filter (fun w => !(decide (w ∈ lvl'))) =
        rem.filter (fun w => !(decide (w ∈ v :: lvl'))) := by
      rw [hrnd.erase_eq_filter v, List.filter_filter]
      apply List.filter_congr
      intro x _
      by_cases h1 : x = v <;> by_cases h2 : x ∈ lvl' <;> simp [h1, h2]
    constructor
    · rw [hstep, ih1, hremeq]
    · intro w hw
      rw [hstep] at hw ⊢
      rw [ih2 w hw]
      have hwrem : w ∈ rem.erase v := by
        rw [ih1] at hw
        exact List.mem_of_mem_filter hw
      rw [List.filter_cons]
      by_cases hvd : v ∈ dependsOn G w
      · rw [if_pos ⟨hwrem, hvd⟩]
        have : (decide (v ∈ dependsOn G w)) = true := by simpa using hvd
        rw [this]
        simp only [if_true, List.length_cons]
        push_cast
        ring
      · rw [if_neg (fun h => hvd h.2)]
        have : (decide (v ∈ dependsOn G w)) = false := by simpa using hvd
        rw [this]
        simp

lemma length_filter_split (l : List String) (p q : String → Bool) :
    (l.filter p).length =
      (l.filter (fun x => p x && q x)).length +
        (l.filter (fun x => p x && !(q x))).length := by
  induction l with
  | nil => simp
  | cons a l ih =>
    rw [List.filter_cons, List.filter_cons, List.filter_cons]
    cases hp : p a <;> cases hq : q a <;>
      simp [hp, hq, ih] <;> omega

/-- Removing a level can only lower in-degrees at least as much as the
number of level nodes among a node's dependencies. -/
lemma countDeps_filter_out {G : Graph} {lvl rem : List String}
    (hlnd : lvl.Nodup) (hsub : ∀ v ∈ lvl, v ∈ rem) (w : String) :
    countDeps G w (rem.filter (fun x => !(decide (x ∈ lvl)))) ≤
      countDeps G w rem -
        ((lvl.filter (fun v => decide (v ∈ dependsOn G w))).length :
          Int) := by
  unfold countDeps
  have hsplit := length_filter_split (dependsOn G w)
    (fun d => decide (d ∈ rem)) (fun d => decide (d ∈ lvl))
  have hB : (dependsOn G w).filter
      (fun d => decide (d ∈ rem.filter (fun x => !(decide (x ∈ lvl))))) =
      (dependsOn G w).filter
        (fun d => decide (d ∈ rem) && !(decide (d ∈ lvl))) := by
    apply List.filter_congr
    intro d _
    by_cases h1 : d ∈ rem <;> by_cases h2 : d ∈ lvl <;>
      simp [h1, h2, List.mem_filter]
  have hD : ((lvl.filter (fun v => decide (v ∈ dependsOn G w))).length ≤
      ((dependsOn G w).filter
        (fun d => decide (d ∈ rem) && decide (d ∈ lvl))).length) := by
    apply List.Subperm.length_le
    apply List.subperm_of_subset (hlnd.filter _)
    intro v hv
    rw [List.mem_filter] at hv ⊢
    have hv2 : v ∈ dependsOn G w := by simpa using hv.2
    refine ⟨hv2, ?_⟩
    simp [hsub v hv.1, hv.1]
  rw [hB]
  omega

/-- Loop lemma for `topological_sort_levels`: every produced level is
strictly sorted in the tuple order, has no internal dependency, draws its
nodes from the remaining set, and places every remaining dependency of an
emitted node in a strictly earlier level.  The in-degree invariant is the
inequality `countDeps ≤ deg`, which survives Python's
decrement-once-per-membership bookkeeping even when a `depends_on` list
mentions the same key twice. -/
lemma levelsLoopF_spec (G : Graph) :
    ∀ (fuel : Nat) (rem : List String) (deg : String → Int), rem.Nodup →
      (∀ w ∈ rem, countDeps G w rem ≤ deg w) →
      (∀ lvl ∈ levelsLoopF G fuel rem deg,
        lvl.Pairwise (fun a b => keyLT G a b = true)) ∧
      (∀ lvl ∈ levelsLoopF G fuel rem deg,
        ∀ y ∈ lvl, ∀ x ∈ lvl, x ∉ dependsOn G y) ∧
      (∀ lvl ∈ levelsLoopF G fuel rem deg, ∀ x ∈ lvl, x ∈ rem) ∧
      (∀ i j : Nat, ∀ hi : i < (levelsLoopF G fuel rem deg).length,
        ∀ hj : j < (levelsLoopF G fuel rem deg).length,
        ∀ y ∈ (levelsLoopF G fuel rem deg).get ⟨i, hi⟩,
        ∀ x ∈ dependsOn G y,
          x ∈ (levelsLoopF G fuel rem deg).get ⟨j, hj⟩ → j < i) := by
  intro fuel
  induction fuel with
  | zero =>
    intro rem deg _ _
    refine ⟨by simp [levelsLoopF], by simp [levelsLoopF],
      by simp [levelsLoopF], ?_⟩
    intro i j hi
    simp [levelsLoopF] at hi
  | succ fuel ih =>
    intro rem deg hrnd hinv
    by_cases hempty : rem.isEmpty
    · rw [show levelsLoopF G (fuel + 1) rem deg = [] by
        rw [levelsLoopF, if_pos hempty]]
      refine ⟨by simp, by simp, by simp, ?_⟩
      intro i j hi
      simp at hi
    · by_cases hlvl : (sortByKey G (rem.filter
          (fun w => decide (deg w = 0)))).isEmpty
      · rw [show levelsLoopF G (fuel + 1) rem deg = [] by
          rw [levelsLoopF, if_neg hempty, if_pos hlvl]]
        refine ⟨by simp, by simp, by simp, ?_⟩
        intro i j hi
        simp at hi
      · set lvl := sortByKey G (rem.filter (fun w => decide (deg w = 0)))
          with hlvldef
        set st := lvl.foldl (removeOne G) (rem, deg) with hstdef
        have hunfold : levelsLoopF G (fuel + 1) rem deg =
            lvl :: levelsLoopF G fuel st.1 st.2 := by
          rw [levelsLoopF, if_neg hempty]
          rw [← hlvldef, if_neg hlvl, ← hstdef]
        have hlvlsub : ∀ x ∈ lvl, x ∈ rem := by
          intro x hx
          rw [hlvldef, mem_sortByKey] at hx
          exact List.mem_of_mem_filter hx
        have hlvlnd : lvl.Nodup := by
          rw [hlvldef]
          exact (sortByKey_perm G _).nodup_iff.mpr (hrnd.filter _)
        have hlvlready : ∀ y ∈ lvl, deg y = 0 := by
          intro y hy
          rw [hlvldef, mem_sortByKey, List.mem_filter] at hy
          simpa using hy.2
        have hlvlnodep : ∀ y ∈ lvl, ∀ d ∈ dependsOn G y, d ∉ rem := by
          intro y hy
          have h0 : countDeps G y rem = 0 := by
            have h1 := hinv y (hlvlsub y hy)
            have h2 : (0:Int) ≤ countDeps G y rem := countDeps_nonneg
            have h3 := hlvlready y hy
            omega
          rw [countDeps_zero_iff] at h0
          exact h0
        obtain ⟨hfold1, hfold2⟩ :=
          foldl_removeOne_spec G lvl rem deg hlvlnd hrnd hlvlsub
        have hst1nd : st.1.Nodup := by
          rw [hstdef, hfold1]
          exact hrnd.filter _
        have hst1sub : ∀ x ∈ st.1, x ∈ rem := by
          intro x hx
          rw [hstdef, hfold1] at hx
          exact List.mem_of_mem_filter hx
        have hinv' : ∀ w ∈ st.1, countDeps G w st.1 ≤ st.2 w := by
          intro w hw
          have hw2 : w ∈ (lvl.foldl (removeOne G) (rem, deg)).1 :=
            hstdef ▸ hw
          have h1 := hfold2 w hw2
          have h2 : countDeps G w (lvl.foldl (removeOne G) (rem, deg)).1 ≤
              countDeps G w rem -
                ((lvl.filter
                  (fun v => decide (v ∈ dependsOn G w))).length : Int) := by
            rw [hfold1]
            exact countDeps_filter_out hlvlnd hlvlsub w
          have h3 := hinv w (hst1sub w hw)
          rw [hstdef]
          omega
        obtain ⟨iha, ihb, ihc, ihd⟩ := ih st.1 st.2 hst1nd hinv'
        rw [hunfold]
        refine ⟨?_, ?_, ?_, ?_⟩
        · intro l hl
          rcases List.mem_cons.mp hl with h1 | h2
          · rw [h1, hlvldef]
            exact sortByKey_pairwise (hrnd.filter _)
          · exact iha l h2
        · intro l hl
          rcases List.mem_cons.mp hl with h1 | h2
          · intro y hy x hx
            exact fun hdep =>
              hlvlnodep y (h1 ▸ hy) x hdep (hlvlsub x (h1 ▸ hx))
          · exact ihb l h2
        · intro l hl x hx
          rcases List.mem_cons.mp hl with h1 | h2
          · exact hlvlsub x (h1 ▸ hx)
          · exact hst1sub x (ihc l h2 x hx)
        · intro i j hi hj y hy x hxdep hxmem
          cases i with
          | zero =>
            exfalso
            have hy0 : y ∈ lvl := by simpa using hy
            have hxl : x ∈ (lvl :: levelsLoopF G fuel st.1 st.2).get
                ⟨j, hj⟩ := hxmem
            have hxrem : x ∈ rem := by
              cases j with
              | zero => exact hlvlsub x (by simpa using hxl)
              | succ j' =>
                have hj' : j' < (levelsLoopF G fuel st.1 st.2).length := by
                  simpa using hj
                have : x ∈ (levelsLoopF G fuel st.1 st.2).get ⟨j', hj'⟩ := by
                  simpa using hxl
                exact hst1sub x
                  (ihc _ (List.get_mem _ _ _) x this)
            exact hlvlnodep y hy0 x hxdep hxrem
          | succ i' =>
            cases j with
            | zero => omega
            | succ j' =>
              have hi' : i' < (levelsLoopF G fuel st.1 st.2).length := by
                simpa using hi
              have hj' : j' < (levelsLoopF G fuel st.1 st.2).length := by
                simpa using hj
              have hy' : y ∈ (levelsLoopF G fuel st.1 st.2).get
                  ⟨i', hi'⟩ := by simpa using hy
              have hx' : x ∈ (levelsLoopF G fuel st.1 st.2).get
                  ⟨j', hj'⟩ := by simpa using hxmem
              have := ihd i' j' hi' hj' y hy' x hxdep hx'
              omega

lemma foldl_removeOne_length_le (G : Graph) :
    ∀ (lvl rem : List String) (deg : String → Int),
      (lvl.foldl (removeOne G) (rem, deg)).1.length ≤ rem.length := by
  intro lvl
  induction lvl with
  | nil =>
    intro rem deg
    simp
  | cons v lvl' ih =>
    intro rem deg
    have hstep : ((v :: lvl').foldl (removeOne G) (rem, deg)) =
        lvl'.foldl (removeOne G) (rem.erase v,
          fun w => if w ∈ rem.erase v ∧ v ∈ dependsOn G w
            then deg w - 1 else deg w) := rfl
    rw [hstep]
    exact le_trans (ih _ _) (List.length_erase_le v rem)

lemma foldl_removeOne_length_lt (G : Graph) {v : String}
    {lvl' rem : List String} {deg : String → Int} (hv : v ∈ rem) :
    ((v :: lvl').foldl (removeOne G) (rem, deg)).1.length < rem.length := by
  have hstep : ((v :: lvl').foldl (removeOne G) (rem, deg)) =
      lvl'.foldl (removeOne G) (rem.erase v,
        fun w => if w ∈ rem.erase v ∧ v ∈ dependsOn G w
          then deg w - 1 else deg w) := rfl
  rw [hstep]
  have h1 := foldl_removeOne_length_le G lvl' (rem.erase v)
    (fun w => if w ∈ rem.erase v ∧ v ∈ dependsOn G w
      then deg w - 1 else deg w)
  have h2 := List.length_erase_of_mem hv
  have h3 : 1 ≤ rem.length := List.length_pos.mpr (List.ne_nil_of_mem hv)
  omega

/-- The `while remaining:` loop of `topological_sort_levels` reaches its
exit within `remaining.length` iterations on every input, cyclic graphs
included: any fuel at least that large produces the same value. -/
lemma levelsLoopF_fuel_stable (G : Graph) :
    ∀ (n m : Nat) (rem : List String) (deg : String → Int),
      rem.length ≤ n → rem.length ≤ m →
      levelsLoopF G n rem deg = levelsLoopF G m rem deg := by
  intro n
  induction n with
  | zero =>
    intro m rem deg hn _
    have hrem : rem = [] :=
      List.eq_nil_of_length_eq_zero (Nat.le_zero.mp hn)
    subst hrem
    cases m with
    | zero => rfl
    | succ m' =>
      rw [show levelsLoopF G 0 [] deg = [] from rfl]
      rw [levelsLoopF, if_pos (by rfl)]
  | succ n' ih =>
    intro m rem deg hn hm
    cases m with
    | zero =>
      have hrem : rem = [] :=
        List.eq_nil_of_length_eq_zero (Nat.le_zero.mp hm)
      subst hrem
      rw [show levelsLoopF G 0 [] deg = [] from rfl]
      rw [levelsLoopF, if_pos (by rfl)]
    | succ m' =>
      by_cases hempty : rem.isEmpty
      · rw [show levelsLoopF G (n' + 1) rem deg = [] by
          rw [levelsLoopF, if_pos hempty]]
        rw [show levelsLoopF G (m' + 1) rem deg = [] by
          rw [levelsLoopF, if_pos hempty]]
      · set lvl := sortByKey G (rem.filter (fun w => decide (deg w = 0)))
          with hlvldef
        set st := lvl.foldl (removeOne G) (rem, deg) with hstdef
        by_cases hlvl : lvl.isEmpty
        · rw [show levelsLoopF G (n' + 1) rem deg = [] by
            rw [levelsLoopF, if_neg hempty, ← hlvldef, if_pos hlvl]]
          rw [show levelsLoopF G (m' + 1) rem deg = [] by
            rw [levelsLoopF, if_neg hempty, ← hlvldef, if_pos hlvl]]
        · have e1 : levelsLoopF G (n' + 1) rem deg =
              lvl :: levelsLoopF G n' st.1 st.2 := by
            rw [levelsLoopF, if_neg hempty, ← hlvldef, if_neg hlvl,
              ← hstdef]
          have e2 : levelsLoopF G (m' + 1) rem deg =
              lvl :: levelsLoopF G m' st.1 st.2 := by
            rw [levelsLoopF, if_neg hempty, ← hlvldef, if_neg hlvl,
              ← hstdef]
          rw [e1, e2]
          congr 1
          have hlt : st.1.length < rem.length := by
            rcases hlvlne : lvl with _ | ⟨v, lvl'⟩
            · rw [hlvlne] at hlvl
              simp at hlvl
            · have hvl : v ∈ lvl := hlvlne ▸ List.mem_cons_self _ _
              rw [hlvldef, mem_sortByKey] at hvl
              have hv : v ∈ rem := List.mem_of_mem_filter hvl
              rw [hstdef, hlvlne]
              exact foldl_removeOne_length_lt G hv
          exact ih m' st.1 st.2 (by omega) (by omega)

/-- When no in-degree-zero node remains, the level loop stops and adds no
further level — the already-accumulated levels are the result. -/
lemma levelsLoopF_stalls (G : Graph) (n : Nat) (rem : List String)
    (deg : String → Int)
    (hstall : rem.filter (fun w => decide (deg w = 0)) = []) :
    levelsLoopF G n rem deg = [] := by
  cases n with
  | zero => rfl
  | succ n' =>
    by_cases hempty : rem.isEmpty
    · rw [levelsLoopF, if_pos hempty]
    · have hlvl : (sortByKey G (rem.filter
          (fun w => decide (deg w = 0)))).isEmpty := by
        rw [hstall]
        rfl
      rw [levelsLoopF, if_neg hempty, if_pos hlvl]

lemma descRel_mem_keysOf {G : Graph} {m k : String} (h : DescRel G m k) :
    m ∈ keysOf G := by
  induction h with
  | direct hp _ => exact List.mem_map_of_mem Prod.fst hp
  | trans _ _ _ ih => exact ih

lemma compute_root_workflows_subset {G : Graph}
    {changed_files : List (List Char)} {w : String}
    (h : w ∈ compute_root_workflows changed_files G) : w ∈ keysOf G := by
  unfold compute_root_workflows at h
  set affected := get_affected_workflows changed_files G with haff
  by_cases hemp : affected.isEmpty
  · rw [if_pos hemp] at h
    simp at h
  · rw [if_neg hemp] at h
    rw [mem_sortedList, List.mem_filter] at h
    have hw : w ∈ affected := h.1
    rw [haff] at hw
    unfold get_affected_workflows at hw
    obtain ⟨p, hp, hfst⟩ := List.mem_map.mp hw
    exact hfst ▸ List.mem_map_of_mem Prod.fst (List.mem_of_mem_filter hp)

lemma compute_merge_roots_subset {G : Graph}
    {running new_roots : List String} {w : String}
    (h : w ∈ compute_merge_roots running new_roots G) : w ∈ keysOf G :=
  (((compute_merge_roots_spec G running new_roots).2.2 w).mp h).2.2.1

/-!  ### The claims -/

/-- C1.  `compute_root_workflows(changed_files, graph)` returns exactly
the affected workflows — graph entries whose path patterns match at least
one changed file — whose transitive ancestor set has empty intersection
with the affected set, as a lexicographically sorted list of keys, and
returns the empty list when no workflow is affected.  The graph is a
Python dict, hence has unique keys; the claim's "every graph" is read
under the data model's DAG invariant because the source's recursive
ancestor walk only returns on acyclic graphs. -/
theorem c1_compute_root_workflows (G : Graph)
    (changed_files : List (List Char)) (hkeys : (keysOf G).Nodup)
    (_hacyc : Acyclic G) :
    (compute_root_workflows changed_files G).Sorted (· < ·) ∧
    (∀ w, w ∈ compute_root_workflows changed_files G ↔
      (AffectedSpec G changed_files w ∧
        ∀ a, AncRel G a w → ¬ AffectedSpec G changed_files a)) ∧
    ((∀ w, ¬ AffectedSpec G changed_files w) →
      compute_root_workflows changed_files G = []) :=
  compute_root_workflows_spec hkeys changed_files

theorem c1_witness :
    ((keysOf exampleGraph).Nodup ∧ Acyclic exampleGraph) ∧
      ("a" ∈ compute_root_workflows [['y'], ['x']] exampleGraph ↔
        (AffectedSpec exampleGraph [['y'], ['x']] "a" ∧
          ∀ x, AncRel exampleGraph x "a" →
            ¬ AffectedSpec exampleGraph [['y'], ['x']] x)) :=
  ⟨⟨by decide, by decide⟩,
    (c1_compute_root_workflows exampleGraph [['y'], ['x']]
      (by decide) (by decide)).2.1 "a"⟩

/-- C2.  `compute_merge_roots(running, new_roots, graph)` returns `[]`
whenever `new_roots` is empty, and otherwise the lexicographically sorted
list of exactly those keys of `running ∪ new_roots` present in the graph
whose transitive ancestor set is disjoint from the graph-filtered union
(covering the strict-ancestor/descendant and disjoint-branch behaviors and
silently dropping unknown keys).  Read under the data model's DAG
invariant, as for C1. -/
theorem c2_compute_merge_roots (G : Graph)
    (running new_roots : List String) (_hacyc : Acyclic G) :
    (new_roots = [] → compute_merge_roots running new_roots G = []) ∧
    (compute_merge_roots running new_roots G).Sorted (· < ·) ∧
    (∀ w, w ∈ compute_merge_roots running new_roots G ↔
      (new_roots ≠ [] ∧ (w ∈ running ∨ w ∈ new_roots) ∧ w ∈ keysOf G ∧
        ∀ a, AncRel G a w →
          ¬ ((a ∈ running ∨ a ∈ new_roots) ∧ a ∈ keysOf G))) :=
  compute_merge_roots_spec G running new_roots

theorem c2_witness :
    Acyclic exampleGraph ∧
      compute_merge_roots ["b"] [] exampleGraph = [] ∧
      ("a" ∈ compute_merge_roots ["b"] ["a"] exampleGraph ↔
        ((["a"] : List String) ≠ [] ∧ ("a" ∈ ["b"] ∨ "a" ∈ ["a"]) ∧
          "a" ∈ keysOf exampleGraph ∧
          ∀ x, AncRel exampleGraph x "a" →
            ¬ ((x ∈ ["b"] ∨ x ∈ ["a"]) ∧ x ∈ keysOf exampleGraph))) :=
  ⟨by decide,
    (c2_compute_merge_roots exampleGraph ["b"] [] (by decide)).1 rfl,
    (c2_compute_merge_roots exampleGraph ["b"] ["a"] (by decide)).2.2 "a"⟩

/-- C3.  `topological_sort(workflows, graph)` places every dependency
that lies inside the subset before its dependent, and equals the unique
deterministic Kahn order in which the ready queue is kept
lexicographically sorted and the smallest ready node is always dequeued
next (`kahnMinQueue`).  The subset is a Python set (`Nodup`), and
`depends_on` edge lists are duplicate-free, as Kahn's in-degree
bookkeeping presumes. -/
theorem c3_topological_sort (G : Graph) (ws : List String)
    (hws : ws.Nodup) (hdeps : ∀ w ∈ ws, (dependsOn G w).Nodup) :
    topological_sort ws G = kahnMinQueue G ws ∧
    (∀ l₁ y l₂, topological_sort ws G = l₁ ++ y :: l₂ →
      ∀ x ∈ dependsOn G y, x ∈ ws → x ∈ l₁) := by
  have hmain := topological_sort_eq_kahnMinQueue G ws hws hdeps
  refine ⟨hmain, ?_⟩
  intro l₁ y l₂ hsplit x hxdep hxws
  rw [hmain] at hsplit
  exact kahnMinF_before G ws.length ws l₁ l₂ y hsplit x hxdep hxws

theorem c3_witness :
    ((["a", "b"] : List String).Nodup ∧
      ∀ w ∈ (["a", "b"] : List String),
        (dependsOn exampleGraph w).Nodup) ∧
      topological_sort ["a", "b"] exampleGraph =
        kahnMinQueue exampleGraph ["a", "b"] :=
  ⟨⟨by decide, by decide⟩,
    (c3_topological_sort exampleGraph ["a", "b"]
      (by decide) (by decide)).1⟩

/-- C4.  `topological_sort_levels(workflows, graph)` produces levels with
no internal dependency, places every node strictly after the levels of
all its in-subset dependencies, and sorts each level ascending by the
`(display_order, key)` tuple with the 999 sentinel for a missing
`display_order`. -/
theorem c4_topological_sort_levels (G : Graph) (ws : List String)
    (_hacyc : Acyclic G) (hws : ws.Nodup) :
    (∀ lvl ∈ topological_sort_levels ws G,
      ∀ y ∈ lvl, ∀ x ∈ lvl, x ∉ dependsOn G y) ∧
    (∀ i j : Nat, ∀ hi : i < (topological_sort_levels ws G).length,
      ∀ hj : j < (topological_sort_levels ws G).length,
      ∀ y ∈ (topological_sort_levels ws G).get ⟨i, hi⟩,
      ∀ x ∈ dependsOn G y, x ∈ ws →
        x ∈ (topological_sort_levels ws G).get ⟨j, hj⟩ → j < i) ∧
    (∀ lvl ∈ topological_sort_levels ws G,
      lvl.Pairwise (fun a b => keyLT G a b = true)) := by
  have hinv : ∀ w ∈ ws, countDeps G w ws ≤ buildInDegree ws G w :=
    fun w _ => le_of_eq rfl
  obtain ⟨ha, hb, _, hd⟩ :=
    levelsLoopF_spec G ws.length ws (buildInDegree ws G) hws hinv
  exact ⟨hb, fun i j hi hj y hy x hxdep _ hxmem =>
    hd i j hi hj y hy x hxdep hxmem, ha⟩

theorem c4_witness :
    (Acyclic exampleGraph ∧ (["a", "b"] : List String).Nodup) ∧
      "a" ∉ dependsOn exampleGraph "a" :=
  ⟨⟨by decide, by decide⟩,
    (c4_topological_sort_levels exampleGraph ["a", "b"]
      (by decide) (by decide)).1 ["a"] (by decide) "a" (by decide)
      "a" (by decide)⟩

/-- C5.  `topological_sort_levels` terminates on every graph, cyclic
included: the fueled loop stabilizes once the fuel reaches
`workflows.length` (the loop exits within that many iterations), and
whenever no zero-in-degree node remains while unprocessed nodes still
exist it stops, returning the levels accumulated so far. -/
theorem c5_levels_terminate (G : Graph) (ws : List String) :
    (∀ n, ws.length ≤ n →
      levelsLoopF G n ws (buildInDegree ws G) =
        topological_sort_levels ws G) ∧
    (∀ (n : Nat) (rem : List String) (deg : String → Int), rem ≠ [] →
      rem.filter (fun w => decide (deg w = 0)) = [] →
      levelsLoopF G n rem deg = []) := by
  constructor
  · intro n hn
    unfold topological_sort_levels
    exact levelsLoopF_fuel_stable G n ws.length ws _ hn (le_refl _)
  · intro n rem deg _ hstall
    exact levelsLoopF_stalls G n rem deg hstall

theorem c5_witness :
    ((["a", "b"] : List String).length ≤ 7 ∧
      levelsLoopF cyclicGraph 7 ["a", "b"]
          (buildInDegree ["a", "b"] cyclicGraph) =
        topological_sort_levels ["a", "b"] cyclicGraph) ∧
    ((["a", "b"] : List String) ≠ [] ∧
      (["a", "b"] : List String).filter
        (fun w => decide (buildInDegree ["a", "b"] cyclicGraph w = 0)) =
          [] ∧
      levelsLoopF cyclicGraph 5 ["a", "b"]
        (buildInDegree ["a", "b"] cyclicGraph) = []) :=
  ⟨⟨by decide,
      (c5_levels_terminate cyclicGraph ["a", "b"]).1 7 (by decide)⟩,
    ⟨by decide, by decide,
      (c5_levels_terminate cyclicGraph ["a", "b"]).2 5 ["a", "b"]
        (buildInDegree ["a", "b"] cyclicGraph) (by decide) (by decide)⟩⟩

/-- C6.  For an acyclic unique-key graph, `d ∈ get_all_descendants(k, G)`
iff `k ∈ get_all_ancestors(d, G)`: the two transitive closures are exact
inverses, including through `depends_on` entries that reference keys
absent from the graph. -/
theorem c6_descendants_ancestors_inverse (G : Graph)
    (hkeys : (keysOf G).Nodup) (_hacyc : Acyclic G) (k d : String) :
    d ∈ get_all_descendants k G ↔ k ∈ get_all_ancestors d G := by
  rw [mem_get_all_descendants, mem_get_all_ancestors]
  exact descRel_iff_ancRel hkeys

theorem c6_witness :
    ((keysOf danglingGraph).Nodup ∧ Acyclic danglingGraph) ∧
      ("b" ∈ get_all_descendants "x" danglingGraph ↔
        "x" ∈ get_all_ancestors "b" danglingGraph) :=
  ⟨⟨by decide, by decide⟩,
    c6_descendants_ancestors_inverse danglingGraph
      (by decide) (by decide) "x" "b"⟩

/-- C7 counterexample.  The claim states that no pattern matches the
empty string, but the pattern `*` (fnmatch-translated to the regex `.*`)
matches the empty path, so `file_matches_pattern("", "*")` is `True`. -/
theorem c7_counterexample : file_matches_pattern [] ['*'] = true := by
  decide

/-- C7 (amended).  An empty pattern list matches nothing; and the empty
string is matched by exactly those patterns that start with `**` (whose
empty literal prefix makes the `startswith` check accept) or consist
solely of `*` characters (which fnmatch lets match the empty string) —
every other pattern rejects the empty string. -/
theorem c7_empty_matching :
    (∀ f : List Char, file_matches_patterns f [] = false) ∧
    (∀ p : List Char, file_matches_pattern [] p =
      (['*', '*'].isPrefixOf p || allStars p)) := by
  exact ⟨fun f => rfl, file_matches_pattern_nil⟩

/-- C8.  Every key returned by `compute_root_workflows`,
`compute_merge_roots`, or `get_all_descendants` is a key of the graph,
even when `depends_on` contains dangling references. -/
theorem c8_results_in_graph (G : Graph) :
    (∀ (changed_files : List (List Char)) (w : String),
      w ∈ compute_root_workflows changed_files G → w ∈ keysOf G) ∧
    (∀ (running new_roots : List String) (w : String),
      w ∈ compute_merge_roots running new_roots G → w ∈ keysOf G) ∧
    (∀ k d : String, d ∈ get_all_descendants k G → d ∈ keysOf G) :=
  ⟨fun _ _ h => compute_root_workflows_subset h,
    fun _ _ _ h => compute_merge_roots_subset h,
    fun _ _ h => descRel_mem_keysOf (mem_get_all_descendants.mp h)⟩

/-- C9.  Every pattern beginning with the recursive marker `**` matches
every file path: the literal prefix preceding the marker is empty and
`startswith("")` accepts anything. -/
theorem c9_recursive_marker_head (f p : List Char)
    (h : ['*', '*'].isPrefixOf p = true) :
    file_matches_pattern f p = true := by
  unfold file_matches_pattern
  rw [if_pos (hasStarStar_of_isPrefixOf h)]
  have hhead : starStarHead p = [] :=
    (starStarHead_nil_iff (hasStarStar_of_isPrefixOf h)).mpr h
  rw [hhead]
  cases hfn : fnmatch f (replaceStarStar p) <;>
    simp [hfn, List.isPrefixOf]

theorem c9_witness :
    ['*', '*'].isPrefixOf
        ['*', '*', '/', 'f', 'o', 'o', '.', 'p', 'y'] = true ∧
      file_matches_pattern ['b', 'a', 'r', '.', 't', 'x', 't']
        ['*', '*', '/', 'f', 'o', 'o', '.', 'p', 'y'] = true :=
  ⟨by decide,
    c9_recursive_marker_head ['b', 'a', 'r', '.', 't', 'x', 't']
      ['*', '*', '/', 'f', 'o', 'o', '.', 'p', 'y'] (by decide)⟩

/-- C10.  `get_all_ancestors` includes every dangling `depends_on` entry
reachable from the start node (keys absent from the graph appear in
ancestor sets), whereas `get_all_descendants` only ever returns keys
present in the graph — the two closures treat dangling references
asymmetrically. -/
theorem c10_dangling_asymmetry (G : Graph) (_hacyc : Acyclic G) :
    (∀ a w, AncRel G a w → a ∉ keysOf G → a ∈ get_all_ancestors w G) ∧
    (∀ k d, d ∈ get_all_descendants k G → d ∈ keysOf G) :=
  ⟨fun _ _ ha _ => mem_get_all_ancestors.mpr ha,
    fun _ _ hd => descRel_mem_keysOf (mem_get_all_descendants.mp hd)⟩

theorem c10_witness :
    (Acyclic danglingGraph ∧ "x" ∈ dependsOn danglingGraph "b" ∧
      "x" ∉ keysOf danglingGraph) ∧
      "x" ∈ get_all_ancestors "b" danglingGraph :=
  ⟨⟨by decide, by decide, by decide⟩,
    (c10_dangling_asymmetry danglingGraph (by decide)).1 "x" "b"
      (AncRel.direct (by decide)) (by decide)⟩

end Workflowctl
